import Mathlib

/-!
Verification of the financial-report processing pipeline
(`scripts/text_cleaning.py` and `scripts/llm_processing.py`).

Texts are modelled as `List Char`.  Python functions are translated one
to one; `Except Unit` models a raised `TypeError`, `Option` models
`None`.  The ASCII fragment of Python case folding and `re.IGNORECASE`
is modelled (all patterns in the source are ASCII).
-/

set_option maxRecDepth 8000

namespace Pipeline

/-- Python whitespace for `str.strip()`: space, tab, LF, CR, VT, FF. -/
def isWS (c : Char) : Bool :=
  c = ' ' || c = '\t' || c = '\n' || c = '\x0d' || c = '\x0b' || c = '\x0c'

/-- ASCII lower-casing, modelling `str.lower()` / `re.IGNORECASE` on the
ASCII patterns used by the source. -/
def lowerC (c : Char) : Char :=
  if 'A' ≤ c ∧ c ≤ 'Z' then Char.ofNat (c.toNat + 32) else c

def lowerS (s : List Char) : List Char := s.map lowerC

def isDigitC (c : Char) : Bool := '0' ≤ c ∧ c ≤ '9'

/-- `str.strip()`: drop whitespace from both ends. -/
def pyStrip (s : List Char) : List Char :=
  ((s.dropWhile isWS).reverse.dropWhile isWS).reverse

/-- Split a text on every `'\n'`, as Python `text.split('\n')`
(`n` newlines give `n+1` parts). -/
def splitLines (t : List Char) : List (List Char) :=
  match t with
  | [] => [[]]
  | c :: rest =>
    if c = '\n' then [] :: splitLines rest
    else
      match splitLines rest with
      | l :: ls => (c :: l) :: ls
      | [] => [[c]]

/-- Join lines with `'\n'`, as Python `'\n'.join(lines)`. -/
def joinLines (ls : List (List Char)) : List Char :=
  match ls with
  | [] => []
  | [l] => l
  | l :: rest => l ++ '\n' :: joinLines rest

theorem splitLines_ne_nil (t : List Char) : splitLines t ≠ [] := by
  induction t with
  | nil => simp [splitLines]
  | cons c rest ih =>
    simp only [splitLines]
    split
    · simp
    · cases h : splitLines rest with
      | nil => simp
      | cons l ls => simp

theorem mem_splitLines_noNL (t : List Char) :
    ∀ l ∈ splitLines t, '\n' ∉ l := by
  induction t with
  | nil => intro l hl; simp [splitLines] at hl; simp [hl]
  | cons c rest ih =>
    intro l hl
    simp only [splitLines] at hl
    by_cases hc : c = '\n'
    · simp [hc] at hl
      rcases hl with h | h
      · simp [h]
      · exact ih l h
    · simp [hc] at hl
      cases h : splitLines rest with
      | nil => exact absurd h (splitLines_ne_nil rest)
      | cons m ms =>
        rw [h] at hl
        simp at hl
        rcases hl with h1 | h1
        · subst h1
          have := ih m (by rw [h]; exact List.mem_cons_self m ms)
          simp [this]
          exact fun hh => hc hh.symm
        · exact ih l (by rw [h]; exact List.mem_cons_of_mem m h1)

theorem splitLines_noNL_single (l : List Char) (hl : '\n' ∉ l) :
    splitLines l = [l] := by
  induction l with
  | nil => simp [splitLines]
  | cons c cs ih =>
    have hc : c ≠ '\n' := fun h => hl (by simp [h])
    simp only [splitLines, if_neg hc]
    rw [ih (fun h => hl (List.mem_cons_of_mem c h))]

theorem splitLines_append_nl (l : List Char) (t : List Char) (hl : '\n' ∉ l) :
    splitLines (l ++ '\n' :: t) = l :: splitLines t := by
  induction l with
  | nil => simp [splitLines]
  | cons c cs ih =>
    have hc : c ≠ '\n' := fun h => hl (by simp [h])
    simp only [List.cons_append, splitLines, if_neg hc, List.append_eq]
    rw [ih (fun h => hl (List.mem_cons_of_mem c h))]

theorem splitLines_joinLines (ls : List (List Char)) (hne : ls ≠ [])
    (hNL : ∀ l ∈ ls, '\n' ∉ l) : splitLines (joinLines ls) = ls := by
  induction ls with
  | nil => exact absurd rfl hne
  | cons l rest ih =>
    cases rest with
    | nil =>
      simp only [joinLines]
      exact splitLines_noNL_single l (hNL l (List.mem_cons_self l []))
    | cons m ms =>
      simp only [joinLines]
      rw [splitLines_append_nl l _ (hNL l (List.mem_cons_self l _))]
      rw [ih (by simp) (fun x hx => hNL x (List.mem_cons_of_mem l hx))]

theorem joinLines_splitLines (t : List Char) : joinLines (splitLines t) = t := by
  induction t with
  | nil => simp [splitLines, joinLines]
  | cons c rest ih =>
    simp only [splitLines]
    by_cases hc : c = '\n'
    · rw [if_pos hc]
      cases h : splitLines rest with
      | nil => exact absurd h (splitLines_ne_nil rest)
      | cons m ms =>
        simp only [joinLines]
        rw [← h, ih, hc]
        simp
    · rw [if_neg hc]
      cases h : splitLines rest with
      | nil => exact absurd h (splitLines_ne_nil rest)
      | cons m ms =>
        cases ms with
        | nil =>
          simp only [joinLines]
          have : joinLines (splitLines rest) = rest := ih
          rw [h] at this
          simp only [joinLines] at this
          rw [this]
        | cons m2 ms2 =>
          simp only [joinLines]
          have : joinLines (splitLines rest) = rest := ih
          rw [h] at this
          simp only [joinLines] at this
          simp [this]

/-! ## The chunker

`process_file_smart` (src/scripts/llm_processing.py, lines 121-128):

    chunks = []
    if text_len > CHUNK_SIZE_CHARS:
        for i in range(0, text_len, CHUNK_SIZE_CHARS):
            chunks.append(text[i : i + CHUNK_SIZE_CHARS])
    else:
        chunks.append(text)

generalised over the character budget (the source fixes it to
`CHUNK_SIZE_CHARS = 300000`). -/

def CHUNK_SIZE_CHARS : Nat := 300000

/-- The slicing loop `for i in range(0, text_len, b): text[i:i+b]`. -/
def chunkSlices (b : Nat) (t : List Char) : List (List Char) :=
  if t.length ≤ b ∨ b = 0 then [t]
  else t.take b :: chunkSlices b (t.drop b)
termination_by t.length
decreasing_by
  rename_i h
  push_neg at h
  simp only [List.length_drop]
  omega

/-- `chunkText b t`: the chunk list computed by `process_file_smart`. -/
def chunkText (b : Nat) (t : List Char) : List (List Char) :=
  if t.length > b then chunkSlices b t else [t]

theorem chunkSlices_flatten (b : Nat) (t : List Char) :
    (chunkSlices b t).flatten = t := by
  induction t using chunkSlices.induct b with
  | case1 t h =>
    rw [chunkSlices, if_pos h]
    simp
  | case2 t h ih =>
    rw [chunkSlices, if_neg h]
    simp only [List.flatten_cons]
    rw [ih]
    exact List.take_append_drop b t

theorem chunkSlices_le (b : Nat) (t : List Char) (hb : 1 ≤ b) :
    ∀ ch ∈ chunkSlices b t, ch.length ≤ b := by
  induction t using chunkSlices.induct b with
  | case1 t h =>
    rw [chunkSlices, if_pos h]
    intro ch hch
    simp at hch
    subst hch
    rcases h with h | h
    · exact h
    · omega
  | case2 t h ih =>
    rw [chunkSlices, if_neg h]
    intro ch hch
    simp at hch
    rcases hch with h1 | h1
    · subst h1; simp
    · exact ih ch h1

end Pipeline

/-- C4: for every input text and budget ≥ 1, concatenating the chunks in
order reconstructs the text exactly, and every chunk is at most the
budget long. -/
theorem claim_C4_chunk_partition (b : Nat) (t : List Char) (hb : 1 ≤ b) :
    (Pipeline.chunkText b t).flatten = t ∧
      ∀ ch ∈ Pipeline.chunkText b t, ch.length ≤ b := by
  unfold Pipeline.chunkText
  split
  · exact ⟨Pipeline.chunkSlices_flatten b t, Pipeline.chunkSlices_le b t hb⟩
  · constructor
    · simp
    · intro ch hch
      simp at hch
      subst hch
      omega

/-- Witness for C4 at budget 2 and text "abcde". -/
theorem claim_C4_chunk_partition_witness :
    (Pipeline.chunkText 2 "abcde".data).flatten = "abcde".data ∧
      ∀ ch ∈ Pipeline.chunkText 2 "abcde".data, ch.length ≤ 2 :=
  claim_C4_chunk_partition 2 "abcde".data (by decide)

namespace Pipeline

/-! ## JSON values and a model of `json.loads`

`process_chunk` calls `json.loads` on the cleaned response string.  We
model JSON values and the strict parser of the standard library on the
fragment without `NaN`/`Infinity`; floats keep their raw digits (no
floating-point arithmetic is ever performed on them downstream). -/

inductive JVal where
  | jnull : JVal
  | jbool (b : Bool) : JVal
  | jnum (n : Int) : JVal
  | jflt (neg : Bool) (ip fp : List Char) (expo : Int) : JVal
  | jstr (s : List Char) : JVal
  | jarr (elems : List JVal) : JVal
  | jobj (entries : List (List Char × JVal)) : JVal

/-- JSON inter-token whitespace. -/
def isJWS (c : Char) : Bool := c = ' ' || c = '\t' || c = '\n' || c = '\x0d'

def skipWS (s : List Char) : List Char := s.dropWhile isJWS

def isHexC (c : Char) : Bool :=
  isDigitC c || ('a' ≤ c && c ≤ 'f') || ('A' ≤ c && c ≤ 'F')

def hexVal (c : Char) : Nat :=
  if isDigitC c then c.toNat - 48
  else if 'a' ≤ c && c ≤ 'f' then c.toNat - 87
  else c.toNat - 55

/-- Parse the body of a JSON string (after the opening quote); returns
the decoded characters and the remaining input. -/
def parseJStrAux (s : List Char) : Option (List Char × List Char) :=
  match s with
  | [] => none
  | c :: rest =>
    if c = '"' then some ([], rest)
    else if c = '\\' then
      match rest with
      | [] => none
      | e :: rest2 =>
        if e = 'u' then
          match rest2 with
          | h1 :: h2 :: h3 :: h4 :: rest3 =>
            if isHexC h1 && isHexC h2 && isHexC h3 && isHexC h4 then
              match parseJStrAux rest3 with
              | some (out, r) =>
                some (Char.ofNat (((hexVal h1 * 16 + hexVal h2) * 16 + hexVal h3) * 16 + hexVal h4) :: out, r)
              | none => none
            else none
          | _ => none
        else
          match
            (if e = '"' then some '"'
             else if e = '\\' then some '\\'
             else if e = '/' then some '/'
             else if e = 'b' then some '\x08'
             else if e = 'f' then some '\x0c'
             else if e = 'n' then some '\n'
             else if e = 'r' then some '\x0d'
             else if e = 't' then some '\t'
             else none) with
          | some d =>
            match parseJStrAux rest2 with
            | some (out, r) => some (d :: out, r)
            | none => none
          | none => none
    else if c.toNat < 32 then none
    else
      match parseJStrAux rest with
      | some (out, r) => some (c :: out, r)
      | none => none

def digitsToNat (ds : List Char) : Nat :=
  ds.foldl (fun a c => a * 10 + (c.toNat - 48)) 0

/-- Parse a JSON number: `-?(0|[1-9][0-9]*)(\.[0-9]+)?([eE][-+]?[0-9]+)?`. -/
def parseNum (s : List Char) : Option (JVal × List Char) :=
  let (neg, s1) := match s with
    | '-' :: r => (true, r)
    | _ => (false, s)
  let ip := s1.takeWhile isDigitC
  let s2 := s1.dropWhile isDigitC
  if ip = [] then none
  else if ip.length > 1 && ip.headI = '0' then none
  else
    let (fp, s3) := match s2 with
      | '.' :: r =>
        let ds := r.takeWhile isDigitC
        (ds, r.dropWhile isDigitC)
      | _ => ([], s2)
    match s2 with
    | '.' :: _ =>
      if fp = [] then none
      else parseNumExp neg ip fp s3
    | _ => parseNumExp neg ip fp s3
where
  parseNumExp (neg : Bool) (ip fp : List Char) (s3 : List Char) : Option (JVal × List Char) :=
    match s3 with
    | 'e' :: r => parseNumExpDigits neg ip fp r
    | 'E' :: r => parseNumExpDigits neg ip fp r
    | _ =>
      if fp = [] then
        some (.jnum (if neg then -(digitsToNat ip : Int) else (digitsToNat ip : Int)), s3)
      else some (.jflt neg ip fp 0, s3)
  parseNumExpDigits (neg : Bool) (ip fp : List Char) (r : List Char) : Option (JVal × List Char) :=
    let (eneg, r1) := match r with
      | '-' :: rr => (true, rr)
      | '+' :: rr => (false, rr)
      | _ => (false, r)
    let ds := r1.takeWhile isDigitC
    if ds = [] then none
    else
      let ev : Int := if eneg then -(digitsToNat ds : Int) else (digitsToNat ds : Int)
      some (.jflt neg ip fp ev, r1.dropWhile isDigitC)

/-- Insert into an object with Python-dict semantics: an existing key
keeps its position and gets the new value (last value wins). -/
def objInsert (k : List Char) (v : JVal) : List (List Char × JVal) → List (List Char × JVal)
  | [] => [(k, v)]
  | (k2, v2) :: rest =>
    if k2 = k then (k2, v) :: rest else (k2, v2) :: objInsert k v rest

def startsWithL (p s : List Char) : Bool := s.take p.length = p

/-- The recursive-descent parser state: which production is being
parsed (one function with a job tag, recursing on fuel). -/
inductive PJob where
  | pval : PJob
  | arrBody : PJob
  | arrItems (acc : List JVal) : PJob
  | objBody : PJob
  | objItems (acc : List (List Char × JVal)) : PJob

def parseJ : Nat → PJob → List Char → Option (JVal × List Char)
  | 0, _, _ => none
  | fuel + 1, .pval, s =>
    match s with
    | [] => none
    | c :: rest =>
      if c = '\x7b' then parseJ fuel .objBody (skipWS rest)
      else if c = '[' then parseJ fuel .arrBody (skipWS rest)
      else if c = '"' then
        match parseJStrAux rest with
        | some (out, r) => some (.jstr out, r)
        | none => none
      else if startsWithL "true".data s then some (.jbool true, s.drop 4)
      else if startsWithL "false".data s then some (.jbool false, s.drop 5)
      else if startsWithL "null".data s then some (.jnull, s.drop 4)
      else parseNum s
  | fuel + 1, .arrBody, s =>
    match s with
    | ']' :: rest => some (.jarr [], rest)
    | _ => parseJ fuel (.arrItems []) s
  | fuel + 1, .arrItems acc, s =>
    match parseJ fuel .pval s with
    | none => none
    | some (v, r) =>
      match skipWS r with
      | ',' :: r2 => parseJ fuel (.arrItems (acc ++ [v])) (skipWS r2)
      | ']' :: r2 => some (.jarr (acc ++ [v]), r2)
      | _ => none
  | fuel + 1, .objBody, s =>
    match s with
    | '\x7d' :: rest => some (.jobj [], rest)
    | _ => parseJ fuel (.objItems []) s
  | fuel + 1, .objItems acc, s =>
    match s with
    | '"' :: rest =>
      match parseJStrAux rest with
      | none => none
      | some (k, r) =>
        match skipWS r with
        | ':' :: r2 =>
          match parseJ fuel .pval (skipWS r2) with
          | none => none
          | some (v, r3) =>
            match skipWS r3 with
            | ',' :: r4 => parseJ fuel (.objItems (objInsert k v acc)) (skipWS r4)
            | '\x7d' :: r4 => some (.jobj (objInsert k v acc), r4)
            | _ => none
        | _ => none
    | _ => none

/-- Parse one JSON value at the head of `s` (no leading whitespace). -/
def parseVal (fuel : Nat) (s : List Char) : Option (JVal × List Char) :=
  parseJ fuel .pval s

/-- Model of `json.loads`: the whole input must be one JSON document.
The fuel `3 * length + 3` always suffices: at most two recursion steps
in a row consume no input character. -/
def jsonLoads (s : List Char) : Option JVal :=
  match parseVal (3 * s.length + 3) (skipWS s) with
  | some (v, rest) => if skipWS rest = [] then some v else none
  | none => none

/-! ## `process_chunk` (src/scripts/llm_processing.py, lines 73-99) -/

def endsWithL (p s : List Char) : Bool := startsWithL p.reverse s.reverse

/-- The markdown-fence cleanup applied to `response...content.strip()`:

    if content.startswith("```json"): content = content[7:]
    if content.startswith("```"):     content = content[3:]
    if content.endswith("```"):       content = content[:-3]
    content = content.strip()
-/
def stripFences (content : List Char) : List Char :=
  let c1 := if startsWithL "```json".data content then content.drop 7 else content
  let c2 := if startsWithL "```".data c1 then c1.drop 3 else c1
  let c3 := if endsWithL "```".data c2 then c2.take (c2.length - 3) else c2
  pyStrip c3

/-- One backend call outcome: either `message.content` is the string
`s`, or the call (or attribute access on the response) raised an
exception whose `str` is `msg`. -/
inductive Outcome where
  | resp (s : List Char) : Outcome
  | raise (msg : List Char) : Outcome

/-- The body of `process_chunk`'s `try` block: clean the response and
parse it; an exception is modelled by `Except.error`. -/
def processChunkBody (o : Outcome) : Except (List Char) JVal :=
  match o with
  | .raise m => .error m
  | .resp s =>
    let content := stripFences (pyStrip s)
    match jsonLoads content with
    | some v => .ok v
    | none => .error "JSONDecodeError".data

/-- `process_chunk` as seen by its caller: the `try/except Exception`
wrapper turns every exception into `None`, so the function itself never
raises (`Except.error` never escapes). -/
def processChunkPy (o : Outcome) : Except (List Char) (Option JVal) :=
  match processChunkBody o with
  | .ok v => .ok (some v)
  | .error _ => .ok none

/-- The `Option`-valued view of `process_chunk`. -/
def processChunkOpt (o : Outcome) : Option JVal :=
  match processChunkBody o with
  | .ok v => some v
  | .error _ => none

/-- Python truthiness of a JSON value (`if res:`). -/
def jTruthy : JVal → Bool
  | .jnull => false
  | .jbool b => b
  | .jnum n => n != 0
  | .jflt _ ip fp _ => (ip ++ fp).any (fun c => c != '0')
  | .jstr s => !s.isEmpty
  | .jarr l => !l.isEmpty
  | .jobj l => !l.isEmpty

def resTruthy : Option JVal → Bool
  | none => false
  | some v => jTruthy v

/-! ## `merge_results` (src/scripts/llm_processing.py, lines 59-71) -/

def catPOS : List Char := "positive".data
def catNEG : List Char := "negative".data
def catFWD : List Char := "forward_looking".data
def catRSK : List Char := "risks".data

def CAT_KEYS : List (List Char) := [catPOS, catNEG, catFWD, catRSK]

def lookupKey (k : List Char) : List (List Char × JVal) → Option JVal
  | [] => none
  | (k2, v) :: rest => if k2 = k then some v else lookupKey k rest

/-- `p` occurs as a substring of `s` (Python `p in s` for strings). -/
def isSubstrOf (p s : List Char) : Bool := s.tails.any (startsWithL p)

/-- What `res` contributes at category `key`, mirroring

    if key in res and isinstance(res[key], list):
        final[key].extend(res[key])

`Except.error` models the `TypeError` that `key in res` or `res[key]`
raises when `res` is not a dict. -/
def keyContribution (k : List Char) (res : JVal) : Except Unit (List JVal) :=
  match res with
  | .jobj es =>
    .ok (match lookupKey k es with
      | some (.jarr l) => l
      | _ => [])
  | .jarr xs =>
    if xs.any (fun x => match x with | .jstr s => s = k | _ => false) then .error ()
    else .ok []
  | .jstr s => if isSubstrOf k s then .error () else .ok []
  | _ => .error ()

structure MergedLists where
  positive : List JVal
  negative : List JVal
  forward_looking : List JVal
  risks : List JVal

def mergeStep (acc : MergedLists) (res : JVal) : Except Unit MergedLists := do
  let p ← keyContribution catPOS res
  let n ← keyContribution catNEG res
  let f ← keyContribution catFWD res
  let r ← keyContribution catRSK res
  .ok ⟨acc.positive ++ p, acc.negative ++ n, acc.forward_looking ++ f, acc.risks ++ r⟩

/-- `merge_results`: start from four empty lists and extend per result,
in order. -/
def mergeResults (results : List JVal) : Except Unit MergedLists :=
  results.foldlM mergeStep ⟨[], [], [], []⟩

/-! ## `process_file_smart` (src/scripts/llm_processing.py, lines 110-165) -/

/-- The inner `for i, chunk in enumerate(chunks)` loop for one model.
Returns `(chunk_results, model_failed)` at loop exit.  The `.error`
case is the orchestrator's `except Exception` branch (lines 146-154):
it sets `model_failed = True` and breaks, exactly like a falsy result. -/
def chunkLoop (bk : List Char → List Char → Outcome) (model : List Char) :
    List (List Char) → List JVal × Bool
  | [] => ([], false)
  | ch :: rest =>
    match processChunkPy (bk model ch) with
    | .error _ => ([], true)
    | .ok res =>
      match res with
      | some r =>
        if jTruthy r then
          let p := chunkLoop bk model rest
          (r :: p.1, p.2)
        else ([], true)
      | none => ([], true)

/-- The same loop written against the `Option` view of `process_chunk`,
with no exception branch at all. -/
def chunkLoopSimple (bk : List Char → List Char → Outcome) (model : List Char) :
    List (List Char) → List JVal × Bool
  | [] => ([], false)
  | ch :: rest =>
    match processChunkOpt (bk model ch) with
    | some r =>
      if jTruthy r then
        let p := chunkLoopSimple bk model rest
        (r :: p.1, p.2)
      else ([], true)
    | none => ([], true)

def pyStrBool (b : Bool) : List Char := if b then "True".data else "False".data

/-- Line 162: `if "model" in str(model_failed).lower(): continue`. -/
def fallbackCheck (modelFailed : Bool) : Bool :=
  isSubstrOf "model".data (lowerS (pyStrBool modelFailed))

/-- The `for model in MODELS_TO_TRY` loop.  After a failed attempt the
loop body ends with `continue`/fall-through either way, so the next
model is tried unconditionally; `fallbackCheck` affects nothing. -/
def processModels (bk : List Char → List Char → Outcome) (company : List Char)
    (chunks : List (List Char)) :
    List (List Char) → Except Unit (Option (List Char × MergedLists))
  | [] => .ok none
  | m :: rest =>
    let r := chunkLoop bk m chunks
    if r.2 = false ∧ r.1.length = chunks.length then
      match mergeResults r.1 with
      | .ok mg => .ok (some (company, mg))
      | .error e => .error e
    else
      processModels bk company chunks rest

/-- `process_file_smart` for an already-read text: chunk the text, then
try the models in order.  `.error` models the `TypeError` that
`merge_results` can raise escaping the function; `some (company, m)` is
the returned `{"company": ..., **merged}` record. -/
def processFileSmart (bk : List Char → List Char → Outcome) (company : List Char)
    (text : List Char) (models : List (List Char)) :
    Except Unit (Option (List Char × MergedLists)) :=
  processModels bk company (chunkText CHUNK_SIZE_CHARS text) models

end Pipeline

namespace Pipeline

/-! ## Derived notions used to state the claims -/

def isObjJ : JVal → Bool
  | .jobj _ => true
  | _ => false

/-- What a dict-shaped result contributes at category `k`: its value
there when present and a list, nothing otherwise. -/
def objCat (k : List Char) (r : JVal) : List JVal :=
  match r with
  | .jobj es =>
    match lookupKey k es with
    | some (.jarr l) => l
    | _ => []
  | _ => []

/-- Category `k` of the merge of `rs`, as its spec describes it: the
left-to-right concatenation of the inputs' lists for that category. -/
def catOf (k : List Char) (rs : List JVal) : List JVal :=
  (rs.map (objCat k)).flatten

/-- A result that maps each of the four category keys to an array of
strings (extra keys allowed). -/
def mapsFourCats (r : JVal) : Bool :=
  match r with
  | .jobj es =>
    CAT_KEYS.all (fun k =>
      match lookupKey k es with
      | some (.jarr l) => l.all (fun x => match x with | .jstr _ => true | _ => false)
      | _ => false)
  | _ => false

/-- Modelled from the spec: the required response schema — a JSON
object with exactly the four category keys, each an array of strings
(`process_chunk` itself contains no such check). -/
def schemaValid (v : JVal) : Bool :=
  match v with
  | .jobj es =>
    es.length == 4 &&
      CAT_KEYS.all (fun k =>
        match lookupKey k es with
        | some (.jarr l) => l.all (fun x => match x with | .jstr _ => true | _ => false)
        | _ => false)
  | _ => false

/-- The per-chunk results a model produces on a fully successful pass. -/
def chunkResultsOf (bk : List Char → List Char → Outcome) (model : List Char)
    (chunks : List (List Char)) : List JVal :=
  chunks.map (fun ch => (processChunkOpt (bk model ch)).getD .jnull)

/-! ## Concrete inputs for witnesses and counterexamples -/

/-- A backend whose model `M1` answers garbage and whose other models
answer a fixed well-formed response. -/
def bkC1 (model ch : List Char) : Outcome :=
  if model = "M1".data then .resp "oops".data
  else if ch = "c1".data then
    .resp "\x7b\"positive\": [\"A\"], \"negative\": [], \"forward_looking\": [], \"risks\": []\x7d".data
  else
    .resp "\x7b\"positive\": [\"B\"], \"negative\": [], \"forward_looking\": [], \"risks\": []\x7d".data

def chunksC1 : List (List Char) := ["c1".data, "c2".data]

/-- A backend for C3: the first model fails with a response that is not
JSON (a schema/parse chunk failure, not a model-availability error), the
second model answers a valid response. -/
def bkC3 (model _ch : List Char) : Outcome :=
  if model = "gpt-4o-mini".data then .resp "oops".data
  else .resp "\x7b\"positive\": [\"P\"], \"negative\": [], \"forward_looking\": [], \"risks\": []\x7d".data

/-- A backend response that parses as JSON (after fence stripping) but
violates the four-category schema. -/
def respC2 : List Char := "```json\n\x7b\"foo\": [\"bar\"]\x7d\n```".data

def valC2 : JVal := .jobj [("foo".data, .jarr [.jstr "bar".data])]

def rsC9 : List JVal :=
  [.jobj [], .jobj [(catPOS, .jnum 3)], .jobj [(catPOS, .jarr [.jstr "A".data])]]

/-! ## Merge lemmas -/

theorem exc_bind_ok {α β : Type} (x : α) (f : α → Except Unit β) :
    (Except.ok x >>= f) = f x := rfl

theorem keyContribution_obj (k : List Char) (r : JVal) (h : isObjJ r = true) :
    keyContribution k r = .ok (objCat k r) := by
  cases r <;> simp [isObjJ] at h <;> rfl

theorem mergeStep_obj (acc : MergedLists) (r : JVal) (h : isObjJ r = true) :
    mergeStep acc r =
      .ok ⟨acc.positive ++ objCat catPOS r, acc.negative ++ objCat catNEG r,
           acc.forward_looking ++ objCat catFWD r, acc.risks ++ objCat catRSK r⟩ := by
  unfold mergeStep
  rw [keyContribution_obj catPOS r h, keyContribution_obj catNEG r h,
    keyContribution_obj catFWD r h, keyContribution_obj catRSK r h]
  rfl

theorem mergeResults_obj_general (rs : List JVal) (h : ∀ r ∈ rs, isObjJ r = true) :
    ∀ acc : MergedLists,
      List.foldlM mergeStep acc rs =
        .ok ⟨acc.positive ++ catOf catPOS rs, acc.negative ++ catOf catNEG rs,
             acc.forward_looking ++ catOf catFWD rs, acc.risks ++ catOf catRSK rs⟩ := by
  induction rs with
  | nil =>
    intro acc
    simp only [List.foldlM_nil, catOf, List.map_nil, List.flatten_nil, List.append_nil]
    rfl
  | cons r rest ih =>
    intro acc
    have hr : isObjJ r = true := h r (List.mem_cons_self r rest)
    have hrest : ∀ x ∈ rest, isObjJ x = true :=
      fun x hx => h x (List.mem_cons_of_mem r hx)
    simp only [List.foldlM_cons]
    rw [mergeStep_obj acc r hr, exc_bind_ok]
    rw [ih hrest]
    simp [catOf, List.append_assoc]

end Pipeline

/-- C9: the merge is total on any list of dict-shaped inputs: it never
fails, its output has exactly the four category fields, each a list, and
each field is the concatenation of the inputs' contributions, where an
input whose category value is missing or not a list contributes nothing. -/
theorem claim_C9_merge_total_on_dicts (rs : List Pipeline.JVal)
    (h : ∀ r ∈ rs, Pipeline.isObjJ r = true) :
    Pipeline.mergeResults rs =
      .ok ⟨Pipeline.catOf Pipeline.catPOS rs, Pipeline.catOf Pipeline.catNEG rs,
           Pipeline.catOf Pipeline.catFWD rs, Pipeline.catOf Pipeline.catRSK rs⟩ := by
  unfold Pipeline.mergeResults
  rw [Pipeline.mergeResults_obj_general rs h ⟨[], [], [], []⟩]
  simp

/-- Witness for C9: a dict with no categories and a dict whose
`positive` is not a list contribute nothing; the merge still succeeds. -/
theorem claim_C9_merge_total_on_dicts_witness :
    (∀ r ∈ Pipeline.rsC9, Pipeline.isObjJ r = true) ∧
      Pipeline.mergeResults Pipeline.rsC9 =
        .ok ⟨[.jstr "A".data], [], [], []⟩ :=
  ⟨by intro r hr; fin_cases hr <;> rfl,
   (claim_C9_merge_total_on_dicts Pipeline.rsC9
     (by intro r hr; fin_cases hr <;> rfl)).trans (by rfl)⟩

namespace Pipeline

theorem mapsFourCats_isObj (r : JVal) (h : mapsFourCats r = true) : isObjJ r = true := by
  cases r <;> simp [mapsFourCats] at h <;> rfl

end Pipeline

/-- C5: for inputs that map the four category keys to lists of strings,
the merged list for each category is the left-to-right concatenation of
the inputs' lists for that category (order, duplicates and statement
text preserved verbatim), and merging an appended list splits as the
concatenation of the groups' categories — the associativity law. -/
theorem claim_C5_merge_concatenation (rs : List Pipeline.JVal)
    (h : ∀ r ∈ rs, Pipeline.mapsFourCats r = true) :
    Pipeline.mergeResults rs =
      .ok ⟨Pipeline.catOf Pipeline.catPOS rs, Pipeline.catOf Pipeline.catNEG rs,
           Pipeline.catOf Pipeline.catFWD rs, Pipeline.catOf Pipeline.catRSK rs⟩ ∧
    ∀ ss : List Pipeline.JVal, (∀ r ∈ ss, Pipeline.mapsFourCats r = true) →
      Pipeline.mergeResults (rs ++ ss) =
        .ok ⟨Pipeline.catOf Pipeline.catPOS rs ++ Pipeline.catOf Pipeline.catPOS ss,
             Pipeline.catOf Pipeline.catNEG rs ++ Pipeline.catOf Pipeline.catNEG ss,
             Pipeline.catOf Pipeline.catFWD rs ++ Pipeline.catOf Pipeline.catFWD ss,
             Pipeline.catOf Pipeline.catRSK rs ++ Pipeline.catOf Pipeline.catRSK ss⟩ := by
  constructor
  · exact claim_C9_merge_total_on_dicts rs
      (fun r hr => Pipeline.mapsFourCats_isObj r (h r hr))
  · intro ss hss
    have hall : ∀ r ∈ rs ++ ss, Pipeline.isObjJ r = true := by
      intro r hr
      rcases List.mem_append.mp hr with h1 | h1
      · exact Pipeline.mapsFourCats_isObj r (h r h1)
      · exact Pipeline.mapsFourCats_isObj r (hss r h1)
    rw [claim_C9_merge_total_on_dicts (rs ++ ss) hall]
    simp [Pipeline.catOf]

/-- Witness for C5 at the spec's end-to-end example: chunk 1 returns
only a positive statement, chunk 2 a negative and a risk statement. -/
theorem claim_C5_merge_concatenation_witness :
    (∀ r ∈ [Pipeline.JVal.jobj
              [(Pipeline.catPOS, .jarr [.jstr "Strong Q4".data]), (Pipeline.catNEG, .jarr []),
               (Pipeline.catFWD, .jarr []), (Pipeline.catRSK, .jarr [])],
            Pipeline.JVal.jobj
              [(Pipeline.catPOS, .jarr []), (Pipeline.catNEG, .jarr [.jstr "Weak margins".data]),
               (Pipeline.catFWD, .jarr []), (Pipeline.catRSK, .jarr [.jstr "FX exposure".data])]],
        Pipeline.mapsFourCats r = true) ∧
    Pipeline.mergeResults
        [Pipeline.JVal.jobj
           [(Pipeline.catPOS, .jarr [.jstr "Strong Q4".data]), (Pipeline.catNEG, .jarr []),
            (Pipeline.catFWD, .jarr []), (Pipeline.catRSK, .jarr [])],
         Pipeline.JVal.jobj
           [(Pipeline.catPOS, .jarr []), (Pipeline.catNEG, .jarr [.jstr "Weak margins".data]),
            (Pipeline.catFWD, .jarr []), (Pipeline.catRSK, .jarr [.jstr "FX exposure".data])]] =
      .ok ⟨[.jstr "Strong Q4".data], [.jstr "Weak margins".data], [], [.jstr "FX exposure".data]⟩ :=
  ⟨by intro r hr; fin_cases hr <;> rfl,
   ((claim_C5_merge_concatenation _ (by intro r hr; fin_cases hr <;> rfl)).1).trans (by rfl)⟩

/-- C10: `process_chunk` is total at its boundary — its `try/except
Exception` wrapper turns every backend outcome into a parsed result or
`None` and never lets an exception escape, so the orchestrator's
per-chunk loop behaves exactly like a loop with no exception branch. -/
theorem claim_C10_process_chunk_total :
    (∀ o : Pipeline.Outcome,
        Pipeline.processChunkPy o = .ok (Pipeline.processChunkOpt o)) ∧
    ∀ bk model chunks,
      Pipeline.chunkLoop bk model chunks = Pipeline.chunkLoopSimple bk model chunks := by
  constructor
  · intro o
    unfold Pipeline.processChunkPy Pipeline.processChunkOpt
    cases Pipeline.processChunkBody o <;> rfl
  · intro bk model chunks
    induction chunks with
    | nil => rfl
    | cons ch rest ih =>
      cases hb : Pipeline.processChunkBody (bk model ch) with
      | ok v =>
        by_cases ht : Pipeline.jTruthy v = true <;>
          simp [Pipeline.chunkLoop, Pipeline.chunkLoopSimple, Pipeline.processChunkPy,
            Pipeline.processChunkOpt, hb, ht, ih]
      | error e =>
        simp [Pipeline.chunkLoop, Pipeline.chunkLoopSimple, Pipeline.processChunkPy,
          Pipeline.processChunkOpt, hb]

namespace Pipeline

theorem chunkLoop_success_results (bk : List Char → List Char → Outcome)
    (model : List Char) :
    ∀ chunks, (chunkLoop bk model chunks).2 = false →
      (chunkLoop bk model chunks).1 = chunkResultsOf bk model chunks := by
  intro chunks
  induction chunks with
  | nil => intro _; rfl
  | cons ch rest ih =>
    intro h
    cases hb : processChunkBody (bk model ch) with
    | error e =>
      rw [show chunkLoop bk model (ch :: rest) = ([], true) by
        simp [chunkLoop, processChunkPy, hb]] at h
      simp at h
    | ok v =>
      by_cases ht : jTruthy v = true
      · have hstep : chunkLoop bk model (ch :: rest) =
            (v :: (chunkLoop bk model rest).1, (chunkLoop bk model rest).2) := by
          simp [chunkLoop, processChunkPy, hb, ht]
        rw [hstep] at h ⊢
        simp only at h
        rw [ih h]
        simp [chunkResultsOf, processChunkOpt, hb]
      · rw [show chunkLoop bk model (ch :: rest) = ([], true) by
          simp [chunkLoop, processChunkPy, hb, ht]] at h
        simp at h

end Pipeline

/-- C1: the orchestrator's model fallback.  If the chunk pass under a
model fails, none of that model's accumulated results appear anywhere:
the orchestrator's outcome equals the outcome of running the remaining
models on the full chunk sequence from chunk 1.  If a model's pass
succeeds on every chunk, the result is built exclusively from that
model's per-chunk results.  A chunk failure at the head makes the pass
fail with no dependence on the remaining chunks. -/
theorem claim_C1_model_fallback (bk : List Char → List Char → Pipeline.Outcome)
    (company m : List Char) (ms : List (List Char)) (chunks : List (List Char)) :
    ((Pipeline.chunkLoop bk m chunks).2 = true →
        Pipeline.processModels bk company chunks (m :: ms) =
          Pipeline.processModels bk company chunks ms) ∧
    ((Pipeline.chunkLoop bk m chunks).2 = false →
        (Pipeline.chunkLoop bk m chunks).1 = Pipeline.chunkResultsOf bk m chunks ∧
        Pipeline.processModels bk company chunks (m :: ms) =
          (Pipeline.mergeResults (Pipeline.chunkResultsOf bk m chunks)).map
            (fun mg => some (company, mg))) ∧
    (∀ ch rest, Pipeline.resTruthy (Pipeline.processChunkOpt (bk m ch)) = false →
        Pipeline.chunkLoop bk m (ch :: rest) = ([], true)) := by
  refine ⟨?_, ?_, ?_⟩
  · intro h
    simp only [Pipeline.processModels]
    rw [if_neg]
    intro hcon
    rw [h] at hcon
    exact absurd hcon.1 (by simp)
  · intro h
    have hres := Pipeline.chunkLoop_success_results bk m chunks h
    refine ⟨hres, ?_⟩
    have hlen : (Pipeline.chunkLoop bk m chunks).1.length = chunks.length := by
      rw [hres]; simp [Pipeline.chunkResultsOf]
    simp only [Pipeline.processModels]
    rw [if_pos ⟨h, hlen⟩, hres]
    cases Pipeline.mergeResults (Pipeline.chunkResultsOf bk m chunks) with
    | ok mg => rfl
    | error e => rfl
  · intro ch rest h
    cases hb : Pipeline.processChunkBody (bk m ch) with
    | error e => simp [Pipeline.chunkLoop, Pipeline.processChunkPy, hb]
    | ok v =>
      have ht : Pipeline.jTruthy v = false := by
        simpa [Pipeline.resTruthy, Pipeline.processChunkOpt, hb] using h
      simp [Pipeline.chunkLoop, Pipeline.processChunkPy, hb, ht]

/-- Witness for C1: model `M1` fails on chunk 1 of 2 (garbage
response); the orchestrator's outcome with `[M1, M2]` equals the
outcome with `[M2]` alone, and `M2`'s full-pass results merge to the
`M2`-derived content only. -/
theorem claim_C1_model_fallback_witness :
    (Pipeline.chunkLoop Pipeline.bkC1 "M1".data Pipeline.chunksC1).2 = true ∧
    Pipeline.processModels Pipeline.bkC1 "co".data Pipeline.chunksC1
        ["M1".data, "M2".data] =
      Pipeline.processModels Pipeline.bkC1 "co".data Pipeline.chunksC1 ["M2".data] ∧
    Pipeline.processModels Pipeline.bkC1 "co".data Pipeline.chunksC1 ["M2".data] =
      .ok (some ("co".data,
        ⟨[.jstr "A".data, .jstr "B".data], [], [], []⟩)) :=
  ⟨rfl,
   (claim_C1_model_fallback Pipeline.bkC1 "co".data "M1".data ["M2".data]
      Pipeline.chunksC1).1 rfl,
   rfl⟩

/-- C2 counterexample: the backend response
`[fenced] \x7b"foo": ["bar"]\x7d` parses as JSON but violates the
four-category schema, yet `process_chunk` accepts it (the result is
truthy, so the orchestrator does not treat it as a chunk failure),
contradicting the claim that a schema mismatch is a chunk failure. -/
theorem claim_C2_counterexample :
    Pipeline.processChunkOpt (.resp Pipeline.respC2) = some Pipeline.valC2 ∧
    Pipeline.resTruthy (Pipeline.processChunkOpt (.resp Pipeline.respC2)) = true ∧
    Pipeline.schemaValid Pipeline.valC2 = false :=
  ⟨rfl, rfl, rfl⟩

/-- C2 amended: a backend response string is a chunk failure if and only
if, after markdown-fence stripping, it fails to parse as JSON or parses
to a Python-falsy value (`null`, `false`, `0`, or an empty string, array
or object); no schema validation is performed. -/
theorem claim_C2_chunk_failure_criterion (s : List Char) :
    Pipeline.resTruthy (Pipeline.processChunkOpt (.resp s)) = false ↔
      (Pipeline.jsonLoads (Pipeline.stripFences (Pipeline.pyStrip s)) = none ∨
       ∃ v, Pipeline.jsonLoads (Pipeline.stripFences (Pipeline.pyStrip s)) = some v ∧
         Pipeline.jTruthy v = false) := by
  unfold Pipeline.processChunkOpt Pipeline.processChunkBody
  cases h : Pipeline.jsonLoads (Pipeline.stripFences (Pipeline.pyStrip s)) with
  | none => simp [Pipeline.resTruthy, h]
  | some v => simp [Pipeline.resTruthy, h]

/-- C3: the fallback-continuation branch does not discriminate failure
causes.  The guard at line 162 tests `"model" in str(model_failed)
.lower()` on a boolean, which is always false; and since `continue`
ends the loop body anyway, the orchestrator advances to the next model
on every failure.  Here the first model fails with a plain parse
failure — not a model-availability error — and the orchestrator still
produces the second model's result. -/
theorem claim_C3_fallback_branch_dead :
    (∀ b : Bool, Pipeline.fallbackCheck b = false) ∧
    Pipeline.processFileSmart Pipeline.bkC3 "co".data "text".data
        ["gpt-4o-mini".data, "gpt-4o".data] =
      .ok (some ("co".data, ⟨[.jstr "P".data], [], [], []⟩)) := by
  constructor
  · intro b
    cases b <;> rfl
  · rfl

namespace Pipeline

/-! ## `text_cleaning.py`

The regex patterns of the source use only character classes that are
disjoint from their neighbouring literals, so greedy matching never
backtracks inside one anchor position and each pattern is implemented
as a deterministic scan; `.*` prefixes become a search over suffixes. -/

/-- Case-insensitive literal match at the head; returns the rest. -/
def dropLitCI (lit s : List Char) : Option (List Char) :=
  match lit, s with
  | [], _ => some s
  | _ :: _, [] => none
  | c :: cs, d :: ds => if lowerC d = lowerC c then dropLitCI cs ds else none

/-- One attempt to match `---\s*Page\s+\d+\s*---` (IGNORECASE) at the
head of `s`; returns the suffix after the match. -/
def pageMarkerMatch (s : List Char) : Option (List Char) :=
  match dropLitCI "---".data s with
  | none => none
  | some s1 =>
    match dropLitCI "page".data (s1.dropWhile isWS) with
    | none => none
    | some s3 =>
      match s3 with
      | c :: _ =>
        if isWS c then
          let s4 := s3.dropWhile isWS
          match s4.takeWhile isDigitC with
          | [] => none
          | _ :: _ => dropLitCI "---".data ((s4.dropWhile isDigitC).dropWhile isWS)
        else none
      | [] => none

/-- The `re.sub` scan: try the pattern at every position left to right,
dropping matches (`remove_page_markers`, lines 20-23).  The fuel
`t.length` suffices: every step consumes at least one character. -/
def rpmAux : Nat → List Char → List Char
  | 0, s => s
  | fuel + 1, s =>
    match s with
    | [] => []
    | c :: rest =>
      match pageMarkerMatch s with
      | some s2 => rpmAux fuel s2
      | none => c :: rpmAux fuel rest

def removePageMarkers (t : List Char) : List Char := rpmAux t.length t

/-- `^.*\|\s*\d{4}\s+Annual\s+Report.*$` after a `|`. -/
def hdrP1After (s : List Char) : Bool :=
  match s.dropWhile isWS with
  | d1 :: d2 :: d3 :: d4 :: rest =>
    isDigitC d1 && isDigitC d2 && isDigitC d3 && isDigitC d4 &&
    (match rest with
     | c :: _ =>
       isWS c &&
       (match dropLitCI "annual".data (rest.dropWhile isWS) with
        | some s3 =>
          (match s3 with
           | c2 :: _ =>
             isWS c2 && (dropLitCI "report".data (s3.dropWhile isWS)).isSome
           | [] => false)
        | none => false)
     | [] => false)
  | _ => false

def hdrP1 (s : List Char) : Bool :=
  s.tails.any (fun t => match t with
    | '|' :: rest => hdrP1After rest
    | _ => false)

/-- `^.*Annual\s+Report\s+\d{4}.*$` at one suffix. -/
def hdrP2At (t : List Char) : Bool :=
  match dropLitCI "annual".data t with
  | none => false
  | some s1 =>
    match s1 with
    | c :: _ =>
      isWS c &&
      (match dropLitCI "report".data (s1.dropWhile isWS) with
       | none => false
       | some s2 =>
         match s2 with
         | c2 :: _ =>
           isWS c2 &&
           (match s2.dropWhile isWS with
            | d1 :: d2 :: d3 :: d4 :: _ =>
              isDigitC d1 && isDigitC d2 && isDigitC d3 && isDigitC d4
            | _ => false)
         | [] => false)
    | [] => false

def hdrP2 (s : List Char) : Bool := s.tails.any hdrP2At

def containsCI (p s : List Char) : Bool :=
  s.tails.any (fun t => (dropLitCI p t).isSome)

/-- `^<company>\s*\|\s*.*Annual Report.*$` (company escaped). -/
def hdrP3 (company s : List Char) : Bool :=
  match dropLitCI company s with
  | none => false
  | some s1 =>
    match s1.dropWhile isWS with
    | '|' :: rest => containsCI "annual report".data rest
    | _ => false

/-- `^.*\|\s*Page\s*\d+.*$`. -/
def hdrP4 (s : List Char) : Bool :=
  s.tails.any (fun t => match t with
    | '|' :: rest =>
      (match dropLitCI "page".data (rest.dropWhile isWS) with
       | some s2 =>
         match s2.dropWhile isWS with
         | d :: _ => isDigitC d
         | [] => false
       | none => false)
    | _ => false)

/-- `^\d{1,4}\s*$`. -/
def pnN1 (s : List Char) : Bool :=
  let ds := s.takeWhile isDigitC
  !ds.isEmpty && ds.length ≤ 4 && ((s.dropWhile isDigitC).dropWhile isWS).isEmpty

/-- `^\d{1,4}\s*YF\s*$`. -/
def pnN2 (s : List Char) : Bool :=
  let ds := s.takeWhile isDigitC
  !ds.isEmpty && ds.length ≤ 4 &&
  (match dropLitCI "yf".data ((s.dropWhile isDigitC).dropWhile isWS) with
   | some s2 => (s2.dropWhile isWS).isEmpty
   | none => false)

/-- `^YF\s*\d{4}\s*$`. -/
def pnN3 (s : List Char) : Bool :=
  match dropLitCI "yf".data s with
  | none => false
  | some s1 =>
    match s1.dropWhile isWS with
    | d1 :: d2 :: d3 :: d4 :: rest =>
      isDigitC d1 && isDigitC d2 && isDigitC d3 && isDigitC d4 &&
      (rest.dropWhile isWS).isEmpty
    | _ => false

/-- `^Page\s+\d+\s*$`. -/
def pnN4 (s : List Char) : Bool :=
  match dropLitCI "page".data s with
  | none => false
  | some s1 =>
    match s1 with
    | c :: _ =>
      isWS c &&
      (let s2 := s1.dropWhile isWS
       !(s2.takeWhile isDigitC).isEmpty &&
         ((s2.dropWhile isDigitC).dropWhile isWS).isEmpty)
    | [] => false

/-- A stripped line classified as a header/footer artifact
(`remove_headers_footers`, lines 25-79). -/
def isArtifact (company s : List Char) : Bool :=
  hdrP1 s || hdrP2 s || hdrP3 company s || hdrP4 s ||
  pnN1 s || pnN2 s || pnN3 s || pnN4 s ||
  (lowerS s == lowerS company)

/-- One line of `remove_headers_footers`: blank lines are preserved as
empty lines, artifact lines are dropped, other lines are kept intact. -/
def headerStep (company l : List Char) : Option (List Char) :=
  let stripped := pyStrip l
  if stripped = [] then some []
  else if isArtifact company stripped then none
  else some l

def remove_headers_footers (t company : List Char) : List Char :=
  joinLines ((splitLines t).filterMap (headerStep company))

/-! ### `fix_broken_line_joins` (lines 81-133) -/

def endsWithPunct (l : List Char) : Bool :=
  match l.getLast? with
  | some c => c = '.' || c = '!' || c = '?' || c = ':' || c = ';'
  | none => false

def isListChar (c : Char) : Bool := isDigitC c || c = '-' || c = '•'

/-- `re.match(r'^[\d\-•]+\.', next_line) or
next_line.startswith(('-', '*', 'â€¢'))`. -/
def nextIsList (nx : List Char) : Bool :=
  (!(nx.takeWhile isListChar).isEmpty &&
    (match nx.dropWhile isListChar with
     | '.' :: _ => true
     | _ => false)) ||
  startsWithL "-".data nx || startsWithL "*".data nx || startsWithL "â€¢".data nx

/-- The `while i < len(lines)` loop, index-faithful; fuel
`lines.length` suffices since `i` grows by at least one per step and
the loop body only reads `lines[i]` and `lines[i+1]`. -/
def fixAux : Nat → List (List Char) → Nat → List (List Char)
  | 0, _, _ => []
  | fuel + 1, lines, i =>
    match lines.drop i with
    | [] => []
    | l :: rest =>
      let cur := pyStrip l
      if cur = [] then [] :: fixAux fuel lines (i + 1)
      else
        match rest with
        | [] => cur :: fixAux fuel lines (i + 1)
        | nl :: _ =>
          let nx := pyStrip nl
          if nx = [] then cur :: fixAux fuel lines (i + 1)
          else if !endsWithPunct cur && !nextIsList nx then
            (cur ++ ' ' :: nx) :: fixAux fuel lines (i + 2)
          else cur :: fixAux fuel lines (i + 1)

def fix_broken_line_joins (t : List Char) : List Char :=
  joinLines (fixAux (splitLines t).length (splitLines t) 0)

/-- The same pass as a structural recursion on the line list: a line
that is not joined is emitted as its stripped content; joined lines
become the two stripped contents separated by a single space, and the
scan resumes two lines ahead. -/
def fixSpec : List (List Char) → List (List Char)
  | [] => []
  | [l] =>
    let cur := pyStrip l
    if cur = [] then [[]] else [cur]
  | l :: nl :: rest2 =>
    let cur := pyStrip l
    if cur = [] then [] :: fixSpec (nl :: rest2)
    else
      let nx := pyStrip nl
      if nx = [] then cur :: fixSpec (nl :: rest2)
      else if !endsWithPunct cur && !nextIsList nx then
        (cur ++ ' ' :: nx) :: fixSpec rest2
      else cur :: fixSpec (nl :: rest2)

/-! ### `remove_extra_spaces` (lines 135-141) and `clean_text` (143-157) -/

def isSpTab (c : Char) : Bool := c = ' ' || c = '\t'

/-- `re.sub(r'[ \t]+', ' ', text)` as a streaming scan; `inRun` says
whether the current character extends a space/tab run. -/
def cspAux (inRun : Bool) : List Char → List Char
  | [] => []
  | c :: rest =>
    if isSpTab c then
      if inRun then cspAux true rest else ' ' :: cspAux true rest
    else c :: cspAux false rest

def collapseSpaces (s : List Char) : List Char := cspAux false s

/-- `re.sub(r'\n\x7b3,\x7d', '\n\n', text)`: emit each maximal newline
run capped at two. -/
def cnlAux (k : Nat) : List Char → List Char
  | [] => List.replicate (min k 2) '\n'
  | c :: rest =>
    if c = '\n' then cnlAux (k + 1) rest
    else List.replicate (min k 2) '\n' ++ c :: cnlAux 0 rest

def collapseNewlines (s : List Char) : List Char := cnlAux 0 s

def remove_extra_spaces (t : List Char) : List Char :=
  collapseNewlines (collapseSpaces t)

/-- `clean_text`: the four sub-transforms in order, then `text.strip()`. -/
def clean_text (t company : List Char) : List Char :=
  pyStrip (remove_extra_spaces (fix_broken_line_joins
    (remove_headers_footers (removePageMarkers t) company)))

end Pipeline


namespace Pipeline

theorem drop_succ_of_drop_cons {α : Type} (xs : List α) (i : Nat) (a : α)
    (rest : List α) (h : xs.drop i = a :: rest) : xs.drop (i + 1) = rest := by
  rw [← List.tail_drop, h]
  rfl

theorem fixAux_eq_fixSpec (lines : List (List Char)) :
    ∀ fuel i, lines.length - i ≤ fuel →
      fixAux fuel lines i = fixSpec (lines.drop i) := by
  intro fuel
  induction fuel with
  | zero =>
    intro i h
    have hle : lines.length ≤ i := by omega
    rw [List.drop_eq_nil_of_le hle]
    rfl
  | succ fuel ih =>
    intro i h
    cases hd : lines.drop i with
    | nil => simp [fixAux, hd, fixSpec]
    | cons l rest =>
      have hi : i < lines.length := by
        by_contra hc
        rw [List.drop_eq_nil_of_le (by omega)] at hd
        exact absurd hd (by simp)
      have h1 : lines.drop (i + 1) = rest := drop_succ_of_drop_cons lines i l rest hd
      have hb1 : lines.length - (i + 1) ≤ fuel := by omega
      cases rest with
      | nil =>
        simp only [fixAux, hd]
        rw [ih (i + 1) hb1, h1]
        by_cases hc : pyStrip l = []
        · simp [hc, fixSpec]
        · simp [hc, fixSpec]
      | cons nl rest2 =>
        have h2 : lines.drop (i + 2) = rest2 :=
          drop_succ_of_drop_cons lines (i + 1) nl rest2 h1
        have hb2 : lines.length - (i + 2) ≤ fuel := by omega
        simp only [fixAux, hd]
        by_cases hc : pyStrip l = []
        · rw [if_pos hc, ih (i + 1) hb1, h1]
          simp [fixSpec, hc]
        · rw [if_neg hc]
          by_cases hn : pyStrip nl = []
          · rw [if_pos hn, ih (i + 1) hb1, h1]
            simp [fixSpec, hc, hn]
          · rw [if_neg hn]
            by_cases hj : (!endsWithPunct (pyStrip l) && !nextIsList (pyStrip nl)) = true
            · rw [if_pos hj, ih (i + 2) hb2, h2]
              simp [fixSpec, hc, hn, hj]
            · rw [if_neg hj, ih (i + 1) hb1, h1]
              simp [fixSpec, hc, hn, hj]

end Pipeline

/-- C8 counterexample: the single line `"  x."` is not joined to any
successor, yet the pass emits it stripped of its leading whitespace,
not unchanged. -/
theorem claim_C8_counterexample :
    Pipeline.fix_broken_line_joins "  x.".data = "x.".data ∧
    "x.".data ≠ "  x.".data := by
  exact ⟨rfl, by decide⟩

/-- C8 amended: the line-join pass equals the structural scan
`fixSpec` — every line that is not joined is emitted as its stripped
content (interior preserved verbatim, leading/trailing whitespace
removed); joined lines become the two stripped contents separated by a
single space, with scanning resuming two lines ahead. -/
theorem claim_C8_line_join_pass (t : List Char) :
    Pipeline.fix_broken_line_joins t =
      Pipeline.joinLines (Pipeline.fixSpec (Pipeline.splitLines t)) := by
  unfold Pipeline.fix_broken_line_joins
  rw [Pipeline.fixAux_eq_fixSpec (Pipeline.splitLines t) (Pipeline.splitLines t).length 0
    (by omega)]
  rfl

namespace Pipeline

/-! ## Normal forms for the idempotence claim -/

def hasDblSpTab : List Char → Bool
  | a :: b :: rest => (isSpTab a && isSpTab b) || hasDblSpTab (b :: rest)
  | _ => false

def hasTripleNL : List Char → Bool
  | a :: b :: c :: rest =>
    (a = '\n' && b = '\n' && c = '\n') || hasTripleNL (b :: c :: rest)
  | _ => false

def hasTab (t : List Char) : Bool := t.any (fun c => c == '\t')

/-- No line-join fires between adjacent lines `l`, `l2`. -/
def adjOK (l l2 : List Char) : Bool :=
  l.isEmpty || l2.isEmpty || endsWithPunct l || nextIsList l2

def linesNF (company : List Char) (ls : List (List Char)) : Bool :=
  ls.all (fun l => pyStrip l == l && (l.isEmpty || !isArtifact company l)) &&
  (ls.zip ls.tail).all (fun p => adjOK p.1 p.2)

/-- A text in normal form: free of page markers and artifact lines,
every line stripped, no join fires, no tab, no double space, at most
two consecutive newlines, no leading or trailing whitespace. -/
def normalForm (company t : List Char) : Bool :=
  (removePageMarkers t == t) && linesNF company (splitLines t) &&
  !hasTab t && !hasDblSpTab t && !hasTripleNL t && (pyStrip t == t)

theorem filterMap_headerStep_id (c : List Char) (ls : List (List Char))
    (h : ∀ l ∈ ls, pyStrip l = l ∧ (l = [] ∨ isArtifact c l = false)) :
    ls.filterMap (headerStep c) = ls := by
  induction ls with
  | nil => rfl
  | cons l rest ih =>
    obtain ⟨hstrip, hart⟩ := h l (List.mem_cons_self l rest)
    simp only [List.filterMap_cons]
    have hstep : headerStep c l = some l := by
      unfold headerStep
      rw [hstrip]
      rcases hart with h1 | h1
      · subst h1; simp
      · by_cases he : l = []
        · subst he; simp
        · rw [if_neg he, if_neg (by simp [h1])]
    rw [hstep, ih (fun x hx => h x (List.mem_cons_of_mem l hx))]

theorem fixSpec_id (ls : List (List Char))
    (hs : ∀ l ∈ ls, pyStrip l = l)
    (hadj : ∀ p ∈ ls.zip ls.tail, adjOK p.1 p.2 = true) :
    fixSpec ls = ls := by
  induction ls with
  | nil => rfl
  | cons l rest ih =>
    have h1 : pyStrip l = l := hs l (List.mem_cons_self l rest)
    have hsrest : ∀ x ∈ rest, pyStrip x = x :=
      fun x hx => hs x (List.mem_cons_of_mem l hx)
    cases rest with
    | nil =>
      simp only [fixSpec, h1]
      by_cases he : l = []
      · simp [he]
      · simp [he]
    | cons nl rest2 =>
      have h2 : pyStrip nl = nl := hsrest nl (List.mem_cons_self nl rest2)
      have hadjrest : ∀ p ∈ (nl :: rest2).zip rest2, adjOK p.1 p.2 = true := by
        intro p hp
        refine hadj p ?_
        simp only [List.tail_cons, List.zip_cons_cons]
        exact List.mem_cons_of_mem _ hp
      have hpair : adjOK l nl = true := by
        refine hadj (l, nl) ?_
        simp only [List.tail_cons, List.zip_cons_cons]
        exact List.mem_cons_self _ _
      have hrest : fixSpec (nl :: rest2) = nl :: rest2 := ih hsrest hadjrest
      simp only [fixSpec, h1, h2]
      by_cases he : l = []
      · rw [if_pos he, hrest, he]
      · rw [if_neg he]
        by_cases hn : nl = []
        · rw [if_pos hn, hrest]
        · rw [if_neg hn]
          have hjoin : (!endsWithPunct l && !nextIsList nl) = false := by
            have hle : l.isEmpty = false := by
              cases l
              · exact absurd rfl he
              · rfl
            have hne2 : nl.isEmpty = false := by
              cases nl
              · exact absurd rfl hn
              · rfl
            simp only [adjOK, hle, hne2, Bool.false_or] at hpair
            cases hE : endsWithPunct l
            · cases hN : nextIsList nl
              · rw [hE, hN] at hpair
                simp at hpair
              · simp [hN]
            · simp [hE]
          rw [hjoin]
          simp only [Bool.false_eq_true, if_false, hrest]

end Pipeline

namespace Pipeline

def headSp : List Char → Bool
  | [] => false
  | c :: _ => isSpTab c

theorem cspAux_id (t : List Char) (htab : hasTab t = false)
    (hdbl : hasDblSpTab t = false) :
    cspAux false t = t ∧ (headSp t = false → cspAux true t = t) := by
  induction t with
  | nil => exact ⟨rfl, fun _ => rfl⟩
  | cons c rest ih =>
    simp only [hasTab, List.any_cons, Bool.or_eq_false_iff] at htab
    have hct : (c == '\t') = false := htab.1
    have htab' : hasTab rest = false := htab.2
    have hdbl' : hasDblSpTab rest = false := by
      cases rest with
      | nil => rfl
      | cons b r2 =>
        simp only [hasDblSpTab, Bool.or_eq_false_iff] at hdbl
        exact hdbl.2
    obtain ⟨ih0, ih1⟩ := ih htab' hdbl'
    by_cases hsp : isSpTab c = true
    · have hcsp : c = ' ' := by
        simp only [isSpTab, Bool.or_eq_true, decide_eq_true_eq] at hsp
        rcases hsp with h | h
        · exact h
        · exfalso
          rw [h] at hct
          simp at hct
      subst hcsp
      have hheadrest : headSp rest = false := by
        cases rest with
        | nil => rfl
        | cons b r2 =>
          simp only [hasDblSpTab, Bool.or_eq_false_iff] at hdbl
          simp only [headSp]
          have h1 := hdbl.1
          rw [hsp] at h1
          simpa using h1
      constructor
      · have hstep : cspAux false (' ' :: rest) = ' ' :: cspAux true rest := rfl
        rw [hstep, ih1 hheadrest]
      · intro hh
        exfalso
        simp [headSp, isSpTab] at hh
    · have hsp' : isSpTab c = false := by simpa using hsp
      constructor
      · simp [cspAux, hsp', ih0]
      · intro _
        simp [cspAux, hsp', ih0]

theorem collapseSpaces_id (t : List Char) (htab : hasTab t = false)
    (hdbl : hasDblSpTab t = false) : collapseSpaces t = t :=
  (cspAux_id t htab hdbl).1

theorem hasTripleNL_tail (a : Char) (t : List Char)
    (h : hasTripleNL (a :: t) = false) : hasTripleNL t = false := by
  cases t with
  | nil => rfl
  | cons b r =>
    cases r with
    | nil => rfl
    | cons c r2 =>
      simp only [hasTripleNL, Bool.or_eq_false_iff] at h
      exact h.2

theorem hasTripleNL_suffix (pre t : List Char)
    (h : hasTripleNL (pre ++ t) = false) : hasTripleNL t = false := by
  induction pre with
  | nil => exact h
  | cons a p ih => exact ih (hasTripleNL_tail a _ h)

theorem replicate_succ_nl (k : Nat) (t : List Char) :
    List.replicate (k + 1) '\n' ++ t = List.replicate k '\n' ++ '\n' :: t := by
  rw [List.replicate_succ', List.append_assoc]
  rfl

theorem cnlAux_id (t : List Char) : ∀ k, k ≤ 2 →
    hasTripleNL (List.replicate k '\n' ++ t) = false →
    cnlAux k t = List.replicate k '\n' ++ t := by
  induction t with
  | nil =>
    intro k hk _
    simp only [cnlAux, List.append_nil]
    rw [Nat.min_eq_left hk]
  | cons c rest ih =>
    intro k hk h
    by_cases hc : c = '\n'
    · subst hc
      have hk1 : k + 1 ≤ 2 := by
        rcases Nat.lt_or_ge k 2 with h2 | h2
        · omega
        · exfalso
          have hk2 : k = 2 := by omega
          subst hk2
          simp [hasTripleNL] at h
      have h' : hasTripleNL (List.replicate (k + 1) '\n' ++ rest) = false := by
        rw [replicate_succ_nl]
        exact h
      have hstep : cnlAux k ('\n' :: rest) = cnlAux (k + 1) rest := by
        simp [cnlAux]
      rw [hstep, ih (k + 1) hk1 h', replicate_succ_nl]
    · have hrest : hasTripleNL rest = false :=
        hasTripleNL_tail c rest (hasTripleNL_suffix (List.replicate k '\n') _ h)
      have hstep : cnlAux k (c :: rest) =
          List.replicate (min k 2) '\n' ++ c :: cnlAux 0 rest := by
        simp [cnlAux, hc]
      rw [hstep, Nat.min_eq_left hk, ih 0 (by omega) (by simpa using hrest)]
      rfl

theorem collapseNewlines_id (t : List Char) (h : hasTripleNL t = false) :
    collapseNewlines t = t := by
  unfold collapseNewlines
  rw [cnlAux_id t 0 (by omega) (by simpa using h)]
  rfl

end Pipeline

namespace Pipeline

/-- A normal-form text for C7's witness. -/
def tC7 : List Char := "Revenue grew significantly.\n\nNext paragraph.".data

end Pipeline

/-- C7 counterexample: `"a\nb\nc"` is free of the artifact patterns
(no page-marker match, no artifact line), yet normalization is not
idempotent on it: one pass joins the first two lines only, a second
pass joins the third as well. -/
theorem claim_C7_counterexample :
    Pipeline.clean_text (Pipeline.clean_text "a\nb\nc".data "ACME".data) "ACME".data ≠
      Pipeline.clean_text "a\nb\nc".data "ACME".data ∧
    Pipeline.removePageMarkers "a\nb\nc".data = "a\nb\nc".data ∧
    (∀ l ∈ Pipeline.splitLines "a\nb\nc".data,
      Pipeline.isArtifact "ACME".data (Pipeline.pyStrip l) = false) := by
  refine ⟨by decide, by decide, by decide⟩

/-- C7 amended: normalization is idempotent on texts in normal form —
free of page markers and artifact lines, every line stripped, no
line-join fires, no tab or double space, at most two consecutive
newlines, and no leading/trailing whitespace.  On such texts
normalization is the identity, hence idempotent. -/
theorem claim_C7_normalize_idempotent (t c : List Char)
    (h : Pipeline.normalForm c t = true) :
    Pipeline.clean_text t c = t ∧
      Pipeline.clean_text (Pipeline.clean_text t c) c = Pipeline.clean_text t c := by
  suffices hfix : Pipeline.clean_text t c = t by
    refine ⟨hfix, ?_⟩
    rw [hfix]
    exact hfix
  simp only [Pipeline.normalForm, Bool.and_eq_true, beq_iff_eq, Bool.not_eq_true'] at h
  obtain ⟨⟨⟨⟨⟨hrpm, hlines⟩, htab⟩, hdbl⟩, htri⟩, hstrip⟩ := h
  simp only [Pipeline.linesNF, Bool.and_eq_true, List.all_eq_true] at hlines
  obtain ⟨hline, hadj⟩ := hlines
  have hline' : ∀ l ∈ Pipeline.splitLines t, Pipeline.pyStrip l = l ∧
      (l = [] ∨ Pipeline.isArtifact c l = false) := by
    intro l hl
    have h1 := hline l hl
    simp only [Bool.and_eq_true, beq_iff_eq, Bool.or_eq_true, List.isEmpty_iff,
      Bool.not_eq_true'] at h1
    exact ⟨h1.1, h1.2⟩
  unfold Pipeline.clean_text Pipeline.remove_extra_spaces
  rw [hrpm]
  unfold Pipeline.remove_headers_footers
  rw [Pipeline.filterMap_headerStep_id c _ hline', Pipeline.joinLines_splitLines]
  unfold Pipeline.fix_broken_line_joins
  rw [Pipeline.fixAux_eq_fixSpec _ _ 0 (by omega)]
  simp only [List.drop_zero]
  rw [Pipeline.fixSpec_id _ (fun l hl => (hline' l hl).1) (fun p hp => hadj p hp),
    Pipeline.joinLines_splitLines]
  rw [Pipeline.collapseSpaces_id t htab hdbl, Pipeline.collapseNewlines_id t htri, hstrip]

/-- Witness for C7 at a concrete normal-form text. -/
theorem claim_C7_normalize_idempotent_witness :
    Pipeline.normalForm "ACME".data Pipeline.tC7 = true ∧
    Pipeline.clean_text Pipeline.tC7 "ACME".data = Pipeline.tC7 ∧
    Pipeline.clean_text (Pipeline.clean_text Pipeline.tC7 "ACME".data) "ACME".data =
      Pipeline.clean_text Pipeline.tC7 "ACME".data :=
  ⟨by decide,
   (claim_C7_normalize_idempotent Pipeline.tC7 "ACME".data (by decide)).1,
   (claim_C7_normalize_idempotent Pipeline.tC7 "ACME".data (by decide)).2⟩

namespace Pipeline

/-! ## Blocks: machinery for the paragraph-preservation claim -/

def isBlankL (l : List Char) : Bool := (pyStrip l).isEmpty

/-- A clean content line: non-empty, no newline, and non-whitespace at
both ends. -/
def goodLine (l : List Char) : Bool :=
  match l.head?, l.getLast? with
  | some a, some z => !isWS a && !isWS z && !l.any (fun c => c == '\n')
  | _, _ => false

theorem goodLine_ne_nil (l : List Char) (h : goodLine l = true) : l ≠ [] := by
  intro he
  subst he
  simp [goodLine] at h

theorem goodLine_noNL (l : List Char) (h : goodLine l = true) : '\n' ∉ l := by
  unfold goodLine at h
  cases hh : l.head? with
  | none => rw [hh] at h; simp at h
  | some a =>
    cases hz : l.getLast? with
    | none => rw [hh, hz] at h; simp at h
    | some z =>
      rw [hh, hz] at h
      simp only [Bool.and_eq_true, Bool.not_eq_true'] at h
      intro hmem
      have := h.2
      rw [List.any_eq_false] at this
      exact absurd (beq_self_eq_true '\n') (by simpa using this '\n' hmem)

theorem goodLine_head (l : List Char) (h : goodLine l = true) :
    ∃ a rest, l = a :: rest ∧ isWS a = false := by
  cases l with
  | nil => simp [goodLine] at h
  | cons a rest =>
    refine ⟨a, rest, rfl, ?_⟩
    unfold goodLine at h
    simp only [List.head?_cons] at h
    cases hz : (a :: rest).getLast? with
    | none => rw [hz] at h; simp at h
    | some z =>
      rw [hz] at h
      simp only [Bool.and_eq_true, Bool.not_eq_true'] at h
      exact h.1.1

theorem dropWhile_isWS_of_head (a : Char) (rest : List Char) (ha : isWS a = false) :
    List.dropWhile isWS (a :: rest) = a :: rest := by
  rw [List.dropWhile_cons, if_neg (by simp [ha])]

/-- A list with non-whitespace first and last characters is its own
strip. -/
theorem pyStrip_id_of_edges (s : List Char)
    (h : s = [] ∨ ((∃ a, s.head? = some a ∧ isWS a = false) ∧
      (∃ z, s.getLast? = some z ∧ isWS z = false))) :
    pyStrip s = s := by
  rcases h with h | ⟨⟨a, ha, hwa⟩, ⟨z, hz, hwz⟩⟩
  · subst h; rfl
  · unfold pyStrip
    have h1 : List.dropWhile isWS s = s := by
      cases s with
      | nil => rfl
      | cons c rest =>
        simp only [List.head?_cons, Option.some.injEq] at ha
        rw [List.dropWhile_cons, if_neg (by rw [ha]; simp [hwa])]
    rw [h1]
    have h2 : List.dropWhile isWS s.reverse = s.reverse := by
      cases hr : s.reverse with
      | nil => rfl
      | cons c rest =>
        have hcz : s.getLast? = some c := by
          rw [List.getLast?_eq_head?_reverse, hr]
          rfl
        rw [hcz] at hz
        injection hz with hzz
        rw [List.dropWhile_cons, if_neg (by rw [hzz]; simp [hwz])]
    rw [h2, List.reverse_reverse]

theorem goodLine_pyStrip_id (l : List Char) (h : goodLine l = true) :
    pyStrip l = l := by
  refine pyStrip_id_of_edges l (Or.inr ⟨?_, ?_⟩)
  · unfold goodLine at h
    cases hh : l.head? with
    | none => rw [hh] at h; simp at h
    | some a =>
      cases hz : l.getLast? with
      | none => rw [hh, hz] at h; simp at h
      | some z =>
        rw [hh, hz] at h
        simp only [Bool.and_eq_true, Bool.not_eq_true'] at h
        exact ⟨a, rfl, h.1.1⟩
  · unfold goodLine at h
    cases hh : l.head? with
    | none => rw [hh] at h; simp at h
    | some a =>
      cases hz : l.getLast? with
      | none => rw [hh, hz] at h; simp at h
      | some z =>
        rw [hh, hz] at h
        simp only [Bool.and_eq_true, Bool.not_eq_true'] at h
        exact ⟨z, rfl, h.1.2⟩

theorem goodLine_not_blank (l : List Char) (h : goodLine l = true) :
    isBlankL l = false := by
  unfold isBlankL
  rw [goodLine_pyStrip_id l h]
  simpa using goodLine_ne_nil l h

/-- Group a line list into blocks separated by blank lines (a blank
line between consecutive blocks; empty groups possible). -/
def blocksOf : List (List Char) → List (List (List Char))
  | [] => [[]]
  | l :: ls =>
    if isBlankL l then [] :: blocksOf ls
    else
      match blocksOf ls with
      | b :: bs => (l :: b) :: bs
      | [] => [[l]]

/-- Rebuild a line list from blocks, one empty line between blocks. -/
def sepJoin : List (List (List Char)) → List (List Char)
  | [] => []
  | [b] => b
  | b :: bs => b ++ [] :: sepJoin bs

/-- The line list of a cleaned document: blocks separated by exactly
one blank line (`[]` when there is no block at all — the empty text). -/
def joinBlocks : List (List (List Char)) → List (List Char)
  | [] => [[]]
  | [b] => b
  | b :: bs => b ++ [] :: joinBlocks bs

theorem blocksOf_ne_nil (ls : List (List Char)) : blocksOf ls ≠ [] := by
  cases ls with
  | nil => simp [blocksOf]
  | cons l rest =>
    simp only [blocksOf]
    split
    · simp
    · cases h : blocksOf rest with
      | nil => simp
      | cons b bs => simp

theorem blocksOf_mem_not_blank (ls : List (List Char)) :
    ∀ b ∈ blocksOf ls, ∀ l ∈ b, l ∈ ls ∧ isBlankL l = false := by
  induction ls with
  | nil =>
    intro b hb l hl
    simp [blocksOf] at hb
    subst hb
    simp at hl
  | cons x rest ih =>
    intro b hb l hl
    simp only [blocksOf] at hb
    by_cases hx : isBlankL x = true
    · rw [if_pos hx] at hb
      rcases List.mem_cons.mp hb with h1 | h1
      · subst h1; simp at hl
      · have := ih b h1 l hl
        exact ⟨List.mem_cons_of_mem x this.1, this.2⟩
    · rw [if_neg hx] at hb
      cases h : blocksOf rest with
      | nil => exact absurd h (blocksOf_ne_nil rest)
      | cons b0 bs =>
        rw [h] at hb
        rcases List.mem_cons.mp hb with h1 | h1
        · subst h1
          rcases List.mem_cons.mp hl with h2 | h2
          · subst h2
            exact ⟨List.mem_cons_self l rest, by simpa using hx⟩
          · have := ih b0 (by rw [h]; exact List.mem_cons_self b0 bs) l h2
            exact ⟨List.mem_cons_of_mem x this.1, this.2⟩
        · have := ih b (by rw [h]; exact List.mem_cons_of_mem b0 h1) l hl
          exact ⟨List.mem_cons_of_mem x this.1, this.2⟩

/-- `blocksOf` after a leading blank-free block. -/
theorem blocksOf_block_cons (b : List (List Char)) (hb : ∀ l ∈ b, isBlankL l = false) :
    ∀ rest, blocksOf (b ++ [] :: rest) = b :: blocksOf rest := by
  induction b with
  | nil =>
    intro rest
    simp only [List.nil_append, blocksOf, isBlankL]
    rw [if_pos (by simp [pyStrip])]
  | cons x b' ih =>
    intro rest
    have hx : isBlankL x = false := hb x (List.mem_cons_self x b')
    simp only [List.cons_append, blocksOf, List.append_eq]
    rw [if_neg (by simp [hx])]
    rw [ih (fun l hl => hb l (List.mem_cons_of_mem x hl)) rest]

theorem blocksOf_noblank (b : List (List Char)) (hb : ∀ l ∈ b, isBlankL l = false) :
    blocksOf b = [b] := by
  induction b with
  | nil => rfl
  | cons x b2 ih =>
    have hx : isBlankL x = false := hb x (List.mem_cons_self x b2)
    simp only [blocksOf]
    rw [if_neg (by simp [hx]), ih (fun l hl => hb l (List.mem_cons_of_mem x hl))]

/-- Blank-free-block lists are recovered exactly by `blocksOf` from
their separator-joined line list. -/
theorem blocksOf_sepJoin (bs : List (List (List Char)))
    (h : ∀ b ∈ bs, ∀ l ∈ b, isBlankL l = false) (hne : bs ≠ []) :
    blocksOf (sepJoin bs) = bs := by
  induction bs with
  | nil => exact absurd rfl hne
  | cons b rest ih =>
    cases rest with
    | nil =>
      simp only [sepJoin]
      exact blocksOf_noblank b (h b (List.mem_cons_self b []))
    | cons b2 rest2 =>
      simp only [sepJoin]
      rw [blocksOf_block_cons b (h b (List.mem_cons_self b _)) _]
      rw [ih (fun x hx l hl => h x (List.mem_cons_of_mem b hx) l hl) (by simp)]

end Pipeline

namespace Pipeline

/-- The header/footer filter on a non-blank line: drop artifacts, keep
the original line. -/
def headerKeep (c l : List Char) : Option (List Char) :=
  if isArtifact c (pyStrip l) then none else some l

theorem isBlankL_nil : isBlankL ([] : List Char) = true := rfl

theorem sepJoin_cons_head (x : List Char) (B : List (List Char))
    (bs : List (List (List Char))) :
    sepJoin ((x :: B) :: bs) = x :: sepJoin (B :: bs) := by
  cases bs with
  | nil => rfl
  | cons b2 bs2 => rfl

theorem sepJoin_nil_cons (bs : List (List (List Char))) (h : bs ≠ []) :
    sepJoin ([] :: bs) = [] :: sepJoin bs := by
  cases bs with
  | nil => exact absurd rfl h
  | cons b2 bs2 => rfl

/-- `remove_headers_footers`, line-wise, acts block by block. -/
theorem headers_blocks (c : List Char) (ls : List (List Char)) :
    ls.filterMap (headerStep c) =
      sepJoin ((blocksOf ls).map (List.filterMap (headerKeep c))) := by
  induction ls with
  | nil => rfl
  | cons l ls ih =>
    by_cases hb : isBlankL l = true
    · have hstep : headerStep c l = some [] := by
        unfold headerStep
        rw [if_pos (by unfold isBlankL at hb; simpa using hb)]
      have hblocks : blocksOf (l :: ls) = [] :: blocksOf ls := by
        simp only [blocksOf, if_pos hb]
      rw [List.filterMap_cons, hstep, hblocks, List.map_cons, List.filterMap_nil]
      show ([] : List Char) :: List.filterMap (headerStep c) ls = _
      rw [sepJoin_nil_cons ((blocksOf ls).map (List.filterMap (headerKeep c))) (by
        intro hcon
        exact absurd (List.map_eq_nil_iff.mp hcon) (blocksOf_ne_nil ls))]
      rw [ih]
    · have hb' : isBlankL l = false := by simpa using hb
      have hstrip_ne : pyStrip l ≠ [] := by
        unfold isBlankL at hb'
        simpa using hb'
      have hstep : headerStep c l = headerKeep c l := by
        unfold headerStep headerKeep
        rw [if_neg hstrip_ne]
      cases hbs : blocksOf ls with
      | nil => exact absurd hbs (blocksOf_ne_nil ls)
      | cons b bs =>
        have hblocks : blocksOf (l :: ls) = (l :: b) :: bs := by
          simp only [blocksOf, hbs]
          rw [if_neg (by simp [hb'])]
        rw [List.filterMap_cons, hstep, hblocks, List.map_cons, List.filterMap_cons]
        by_cases ha : isArtifact c (pyStrip l) = true
        · have hk : headerKeep c l = none := by
            unfold headerKeep
            rw [if_pos ha]
          rw [hk]
          show List.filterMap (headerStep c) ls =
            sepJoin (List.filterMap (headerKeep c) b :: bs.map (List.filterMap (headerKeep c)))
          rw [ih, hbs]
          rfl
        · have hk : headerKeep c l = some l := by
            unfold headerKeep
            rw [if_neg (by simpa using ha)]
          rw [hk]
          show l :: List.filterMap (headerStep c) ls =
            sepJoin ((l :: List.filterMap (headerKeep c) b) :: bs.map (List.filterMap (headerKeep c)))
          rw [sepJoin_cons_head, ih, hbs]
          rfl

theorem fixSpec_nil_cons (rest : List (List Char)) :
    fixSpec ([] :: rest) = [] :: fixSpec rest := by
  cases rest with
  | nil => rfl
  | cons nl r2 => rfl

theorem not_blank_pyStrip_ne (l : List Char) (h : isBlankL l = false) :
    pyStrip l ≠ [] := by
  unfold isBlankL at h
  simpa using h

theorem fixSpec_block_append :
    ∀ (n : Nat) (b : List (List Char)), b.length ≤ n →
      (∀ l ∈ b, isBlankL l = false) → ∀ rest,
      fixSpec (b ++ [] :: rest) = fixSpec b ++ [] :: fixSpec rest := by
  intro n
  induction n with
  | zero =>
    intro b hlen _ rest
    have : b = [] := List.length_eq_zero.mp (Nat.le_zero.mp hlen)
    subst this
    simpa using fixSpec_nil_cons rest
  | succ n ih =>
    intro b hlen hb rest
    cases b with
    | nil => simpa using fixSpec_nil_cons rest
    | cons x b' =>
      have hx : pyStrip x ≠ [] :=
        not_blank_pyStrip_ne x (hb x (List.mem_cons_self x b'))
      cases b' with
      | nil =>
        have h1 : fixSpec (x :: [] :: rest) = pyStrip x :: fixSpec ([] :: rest) := by
          simp only [fixSpec]
          rw [if_neg hx, if_pos (show pyStrip ([] : List Char) = [] from rfl)]
        have h2 : fixSpec [x] = [pyStrip x] := by
          simp only [fixSpec]
          rw [if_neg hx]
        rw [List.cons_append, List.nil_append, h1, fixSpec_nil_cons, h2]
        rfl
      | cons y b2 =>
        have hy : pyStrip y ≠ [] :=
          not_blank_pyStrip_ne y (hb y (List.mem_cons_of_mem x (List.mem_cons_self y b2)))
        simp only [List.cons_append, fixSpec, List.append_eq]
        rw [if_neg hx, if_neg hy, if_neg hx, if_neg hy]
        by_cases hj : (!endsWithPunct (pyStrip x) && !nextIsList (pyStrip y)) = true
        · rw [if_pos hj, if_pos hj]
          rw [ih b2 (by simp at hlen; omega)
            (fun l hl => hb l (List.mem_cons_of_mem x (List.mem_cons_of_mem y hl))) rest]
          rfl
        · rw [if_neg hj, if_neg hj]
          rw [show y :: (b2 ++ [] :: rest) = (y :: b2) ++ [] :: rest from rfl]
          rw [ih (y :: b2) (by simp at hlen ⊢; omega)
            (fun l hl => hb l (List.mem_cons_of_mem x hl)) rest]
          rfl

end Pipeline

namespace Pipeline

theorem fixSpec_sepJoin (bs : List (List (List Char)))
    (h : ∀ b ∈ bs, ∀ l ∈ b, isBlankL l = false) :
    fixSpec (sepJoin bs) = sepJoin (bs.map fixSpec) := by
  induction bs with
  | nil => rfl
  | cons b rest ih =>
    cases rest with
    | nil => rfl
    | cons b2 rest2 =>
      rw [show sepJoin (b :: b2 :: rest2) = b ++ [] :: sepJoin (b2 :: rest2) from rfl]
      rw [fixSpec_block_append b.length b (Nat.le_refl _)
        (h b (List.mem_cons_self b _)) _]
      rw [ih (fun x hx l hl => h x (List.mem_cons_of_mem b hx) l hl)]
      rfl

theorem goodLine_elim (l : List Char) (h : goodLine l = true) :
    ∃ a z, l.head? = some a ∧ l.getLast? = some z ∧
      isWS a = false ∧ isWS z = false ∧ '\n' ∉ l := by
  unfold goodLine at h
  cases hh : l.head? with
  | none => rw [hh] at h; simp at h
  | some a =>
    cases hz : l.getLast? with
    | none => rw [hh, hz] at h; simp at h
    | some z =>
      rw [hh, hz] at h
      simp only [Bool.and_eq_true, Bool.not_eq_true'] at h
      refine ⟨a, z, rfl, rfl, h.1.1, h.1.2, ?_⟩
      intro hmem
      have h2 := h.2
      rw [List.any_eq_false] at h2
      simpa using h2 '\n' hmem

theorem goodLine_intro (l : List Char) (a z : Char)
    (ha : l.head? = some a) (hz : l.getLast? = some z)
    (hwa : isWS a = false) (hwz : isWS z = false) (hnl : '\n' ∉ l) :
    goodLine l = true := by
  unfold goodLine
  rw [ha, hz]
  show (!isWS a && !isWS z && !l.any (fun c => c == '\n')) = true
  simp only [Bool.and_eq_true, Bool.not_eq_true']
  refine ⟨⟨hwa, hwz⟩, ?_⟩
  rw [List.any_eq_false]
  intro x hx
  by_cases hxe : x = '\n'
  · exact absurd (hxe ▸ hx) hnl
  · simp [hxe]

theorem dropWhile_head_false (p : Char → Bool) :
    ∀ (l : List Char) c r, List.dropWhile p l = c :: r → p c = false := by
  intro l
  induction l with
  | nil => intro c r h; simp at h
  | cons a t ih =>
    intro c r h
    rw [List.dropWhile_cons] at h
    by_cases hp : p a = true
    · rw [if_pos hp] at h
      exact ih c r h
    · rw [if_neg hp] at h
      injection h with h1 _
      subst h1
      simpa using hp

theorem dropWhile_getLast?_eq (p : Char → Bool) (l : List Char)
    (h : List.dropWhile p l ≠ []) :
    (List.dropWhile p l).getLast? = l.getLast? := by
  conv_rhs => rw [← List.takeWhile_append_dropWhile p l]
  rw [List.getLast?_append]
  cases hd : (List.dropWhile p l).getLast? with
  | none => exact absurd (List.getLast?_eq_none_iff.mp hd) h
  | some z => rfl

theorem pyStrip_subset (l : List Char) : ∀ x ∈ pyStrip l, x ∈ l := by
  intro x hx
  unfold pyStrip at hx
  rw [List.mem_reverse] at hx
  have h1 : x ∈ (l.dropWhile isWS).reverse :=
    (List.dropWhile_sublist _).mem hx
  rw [List.mem_reverse] at h1
  exact (List.dropWhile_sublist _).mem h1

/-- Stripping a non-blank newline-free line yields a clean line. -/
theorem goodLine_pyStrip (l : List Char) (hb : isBlankL l = false) (hnl : '\n' ∉ l) :
    goodLine (pyStrip l) = true := by
  have hne : pyStrip l ≠ [] := not_blank_pyStrip_ne l hb
  have hps : pyStrip l = (List.dropWhile isWS (l.dropWhile isWS).reverse).reverse := rfl
  have hvne : List.dropWhile isWS (l.dropWhile isWS).reverse ≠ [] := by
    intro hcon
    rw [hps, hcon] at hne
    exact hne rfl
  cases hv : List.dropWhile isWS (l.dropWhile isWS).reverse with
  | nil => exact absurd hv hvne
  | cons c r =>
    have hwc : isWS c = false := dropWhile_head_false isWS _ c r hv
    have hune : l.dropWhile isWS ≠ [] := by
      intro hcon
      rw [hcon] at hv
      simp at hv
    cases hu : l.dropWhile isWS with
    | nil => exact absurd hu hune
    | cons a t =>
      have hwa : isWS a = false := dropWhile_head_false isWS l a t hu
      refine goodLine_intro (pyStrip l) a c ?_ ?_ hwa hwc ?_
      · rw [hps]
        rw [← List.getLast?_reverse]
        rw [List.reverse_reverse]
        rw [dropWhile_getLast?_eq isWS _ (by rw [hv]; simp)]
        rw [List.getLast?_reverse]
        rw [hu]
        rfl
      · rw [hps, ← List.head?_reverse, List.reverse_reverse, hv]
        rfl
      · intro hmem
        exact hnl (pyStrip_subset l '\n' hmem)

theorem goodLine_join (u v : List Char) (hu : goodLine u = true) (hv : goodLine v = true) :
    goodLine (u ++ ' ' :: v) = true := by
  obtain ⟨a, z, ha, hz, hwa, hwz, hnu⟩ := goodLine_elim u hu
  obtain ⟨a2, z2, ha2, hz2, hwa2, hwz2, hnv⟩ := goodLine_elim v hv
  refine goodLine_intro _ a z2 ?_ ?_ hwa hwz2 ?_
  · rw [List.head?_append, ha]
    rfl
  · rw [List.getLast?_append]
    rw [show (' ' :: v) = [' '] ++ v from rfl, List.getLast?_append, hz2]
    rfl
  · intro hmem
    rcases List.mem_append.mp hmem with h1 | h1
    · exact hnu h1
    · rcases List.mem_cons.mp h1 with h2 | h2
      · exact absurd h2 (by decide)
      · exact hnv h2

theorem fixSpec_good : ∀ (n : Nat) (ls : List (List Char)), ls.length ≤ n →
    (∀ l ∈ ls, isBlankL l = false ∧ '\n' ∉ l) →
    ∀ m ∈ fixSpec ls, goodLine m = true := by
  intro n
  induction n with
  | zero =>
    intro ls hlen _ m hm
    have : ls = [] := List.length_eq_zero.mp (Nat.le_zero.mp hlen)
    subst this
    simp [fixSpec] at hm
  | succ n ih =>
    intro ls hlen hgood m hm
    cases ls with
    | nil => simp [fixSpec] at hm
    | cons l ls2 =>
      obtain ⟨hbl, hnll⟩ := hgood l (List.mem_cons_self l ls2)
      have hx : pyStrip l ≠ [] := not_blank_pyStrip_ne l hbl
      cases ls2 with
      | nil =>
        have : fixSpec [l] = [pyStrip l] := by
          simp only [fixSpec]
          rw [if_neg hx]
        rw [this] at hm
        rcases List.mem_cons.mp hm with h1 | h1
        · subst h1
          exact goodLine_pyStrip l hbl hnll
        · simp at h1
      | cons nl rest2 =>
        obtain ⟨hbn, hnln⟩ := hgood nl
          (List.mem_cons_of_mem l (List.mem_cons_self nl rest2))
        have hy : pyStrip nl ≠ [] := not_blank_pyStrip_ne nl hbn
        have hrest : ∀ x ∈ nl :: rest2, isBlankL x = false ∧ '\n' ∉ x :=
          fun x hxm => hgood x (List.mem_cons_of_mem l hxm)
        by_cases hj : (!endsWithPunct (pyStrip l) && !nextIsList (pyStrip nl)) = true
        · have hstep : fixSpec (l :: nl :: rest2) =
              (pyStrip l ++ ' ' :: pyStrip nl) :: fixSpec rest2 := by
            simp only [fixSpec]
            rw [if_neg hx, if_neg hy, if_pos hj]
          rw [hstep] at hm
          rcases List.mem_cons.mp hm with h1 | h1
          · subst h1
            exact goodLine_join _ _ (goodLine_pyStrip l hbl hnll)
              (goodLine_pyStrip nl hbn hnln)
          · exact ih rest2 (by simp at hlen ⊢; omega)
              (fun x hxm => hrest x (List.mem_cons_of_mem nl hxm)) m h1
        · have hstep : fixSpec (l :: nl :: rest2) =
              pyStrip l :: fixSpec (nl :: rest2) := by
            simp only [fixSpec]
            rw [if_neg hx, if_neg hy, if_neg hj]
          rw [hstep] at hm
          rcases List.mem_cons.mp hm with h1 | h1
          · subst h1
            exact goodLine_pyStrip l hbl hnll
          · exact ih (nl :: rest2) (by simp at hlen ⊢; omega) hrest m h1

end Pipeline

namespace Pipeline

theorem cspAux_cons_sp_false (c : Char) (X : List Char) (hc : isSpTab c = true) :
    cspAux false (c :: X) = ' ' :: cspAux true X := by
  simp [cspAux, hc]

theorem cspAux_cons_sp_true (c : Char) (X : List Char) (hc : isSpTab c = true) :
    cspAux true (c :: X) = cspAux true X := by
  simp [cspAux, hc]

theorem cspAux_cons_nonsp (c : Char) (X : List Char) (flag : Bool) (hc : isSpTab c = false) :
    cspAux flag (c :: X) = c :: cspAux false X := by
  cases flag <;> simp [cspAux, hc]

theorem not_ws_not_sptab (c : Char) (h : isWS c = false) : isSpTab c = false := by
  unfold isWS at h
  unfold isSpTab
  by_cases h1 : c = ' '
  · rw [h1] at h; simp at h
  · by_cases h2 : c = '\t'
    · rw [h2] at h; simp at h
    · simp [h1, h2]

theorem cspAux_append_nl (v : List Char) :
    ∀ (u : List Char) (flag : Bool),
      cspAux flag (u ++ '\n' :: v) = cspAux flag u ++ '\n' :: cspAux false v := by
  intro u
  induction u with
  | nil =>
    intro flag
    cases flag <;> rfl
  | cons c u2 ih =>
    intro flag
    by_cases hc : isSpTab c = true
    · cases flag with
      | false =>
        rw [List.cons_append, cspAux_cons_sp_false c _ hc, ih true,
          cspAux_cons_sp_false c u2 hc]
        rfl
      | true =>
        rw [List.cons_append, cspAux_cons_sp_true c _ hc, ih true,
          cspAux_cons_sp_true c u2 hc]
    · have hc' : isSpTab c = false := by simpa using hc
      rw [List.cons_append, cspAux_cons_nonsp c _ flag hc', ih false,
        cspAux_cons_nonsp c u2 flag hc']
      rfl

theorem collapseSpaces_joinLines (ms : List (List Char)) :
    collapseSpaces (joinLines ms) = joinLines (ms.map collapseSpaces) := by
  induction ms with
  | nil => rfl
  | cons l rest ih =>
    cases rest with
    | nil => rfl
    | cons m rs =>
      show cspAux false (l ++ '\n' :: joinLines (m :: rs)) = _
      rw [cspAux_append_nl _ l false]
      unfold collapseSpaces at ih
      rw [ih]
      rfl

theorem cspAux_mem (x : Char) : ∀ (l : List Char) (flag : Bool),
    x ∈ cspAux flag l → x ∈ l ∨ x = ' ' := by
  intro l
  induction l with
  | nil => intro flag h; cases flag <;> simp [cspAux] at h
  | cons c rest ih =>
    intro flag h
    by_cases hc : isSpTab c = true
    · cases flag with
      | false =>
        rw [cspAux_cons_sp_false c rest hc] at h
        rcases List.mem_cons.mp h with h1 | h1
        · right; exact h1
        · rcases ih true h1 with h2 | h2
          · left; exact List.mem_cons_of_mem c h2
          · right; exact h2
      | true =>
        rw [cspAux_cons_sp_true c rest hc] at h
        rcases ih true h with h2 | h2
        · left; exact List.mem_cons_of_mem c h2
        · right; exact h2
    · have hc' : isSpTab c = false := by simpa using hc
      rw [cspAux_cons_nonsp c rest flag hc'] at h
      rcases List.mem_cons.mp h with h1 | h1
      · left; exact h1 ▸ List.mem_cons_self c rest
      · rcases ih false h1 with h2 | h2
        · left; exact List.mem_cons_of_mem c h2
        · right; exact h2

theorem cspAux_getLast? (z : Char) (hz : isWS z = false) :
    ∀ (l : List Char) (flag : Bool), l.getLast? = some z →
      (cspAux flag l).getLast? = some z := by
  intro l
  induction l with
  | nil => intro flag h; simp at h
  | cons c rest ih =>
    intro flag h
    cases rest with
    | nil =>
      have hcz : c = z := by simpa using h
      subst hcz
      rw [cspAux_cons_nonsp c [] flag (not_ws_not_sptab c hz)]
      rfl
    | cons d rest2 =>
      have hrest : (d :: rest2).getLast? = some z := by
        rw [List.getLast?_cons_cons] at h
        exact h
      by_cases hc : isSpTab c = true
      · cases flag with
        | false =>
          rw [cspAux_cons_sp_false c _ hc]
          have h2 := ih true hrest
          cases hW : cspAux true (d :: rest2) with
          | nil => rw [hW] at h2; simp at h2
          | cons w1 ws =>
            rw [hW] at h2
            rw [List.getLast?_cons_cons]
            exact h2
        | true =>
          rw [cspAux_cons_sp_true c _ hc]
          exact ih true hrest
      · have hc' : isSpTab c = false := by simpa using hc
        rw [cspAux_cons_nonsp c _ flag hc']
        have h2 := ih false hrest
        cases hW : cspAux false (d :: rest2) with
        | nil => rw [hW] at h2; simp at h2
        | cons w1 ws =>
          rw [hW] at h2
          rw [List.getLast?_cons_cons]
          exact h2

theorem goodLine_collapseSpaces (l : List Char) (h : goodLine l = true) :
    goodLine (collapseSpaces l) = true := by
  obtain ⟨a, z, ha, hz, hwa, hwz, hnl⟩ := goodLine_elim l h
  cases l with
  | nil => simp at ha
  | cons c rest =>
    have hca : c = a := by simpa using ha
    subst hca
    have hstep : collapseSpaces (c :: rest) = c :: cspAux false rest :=
      cspAux_cons_nonsp c rest false (not_ws_not_sptab c hwa)
    rw [hstep]
    refine goodLine_intro _ c z rfl ?_ hwa hwz ?_
    · have h2 := cspAux_getLast? z hwz (c :: rest) false hz
      rw [cspAux_cons_nonsp c rest false (not_ws_not_sptab c hwa)] at h2
      exact h2
    · intro hmem
      have hm2 : '\n' ∈ cspAux false (c :: rest) := by
        rw [cspAux_cons_nonsp c rest false (not_ws_not_sptab c hwa)]
        exact hmem
      rcases cspAux_mem '\n' (c :: rest) false hm2 with h1 | h1
      · exact hnl h1
      · exact absurd h1 (by decide)

end Pipeline

namespace Pipeline

theorem cnlAux_cons_nl (k : Nat) (rest : List Char) :
    cnlAux k ('\n' :: rest) = cnlAux (k + 1) rest := by
  simp [cnlAux]

theorem cnlAux_cons_other (k : Nat) (c : Char) (rest : List Char) (hc : c ≠ '\n') :
    cnlAux k (c :: rest) = List.replicate (min k 2) '\n' ++ c :: cnlAux 0 rest := by
  simp [cnlAux, hc]

def dNL (s : List Char) : List Char := s.dropWhile (fun c => c == '\n')

theorem dNL_cons_nl (rest : List Char) : dNL ('\n' :: rest) = dNL rest := by
  unfold dNL
  rw [List.dropWhile_cons, if_pos (by simp)]

theorem dNL_cons_other (c : Char) (rest : List Char) (hc : c ≠ '\n') :
    dNL (c :: rest) = c :: rest := by
  unfold dNL
  rw [List.dropWhile_cons, if_neg (by simp [hc])]

theorem dNL_replicate_append (t : List Char) :
    ∀ n, dNL (List.replicate n '\n' ++ t) = dNL t := by
  intro n
  induction n with
  | zero => rfl
  | succ m ih =>
    rw [List.replicate_succ, List.cons_append, dNL_cons_nl]
    exact ih

theorem dNL_cnlAux (w : List Char) : ∀ k, dNL (cnlAux k w) = dNL (cnlAux 0 w) := by
  induction w with
  | nil =>
    intro k
    show dNL (List.replicate (min k 2) '\n') = dNL (List.replicate (min 0 2) '\n')
    rw [show List.replicate (min k 2) '\n' =
      List.replicate (min k 2) '\n' ++ [] from (List.append_nil _).symm]
    rw [dNL_replicate_append]
    rfl
  | cons c rest ih =>
    intro k
    by_cases hc : c = '\n'
    · subst hc
      rw [cnlAux_cons_nl k rest, cnlAux_cons_nl 0 rest, ih (k + 1), ih 1]
    · rw [cnlAux_cons_other k c rest hc, cnlAux_cons_other 0 c rest hc]
      rw [dNL_replicate_append, dNL_replicate_append]

theorem cnlAux_ge2 (w : List Char) : ∀ k, 2 ≤ k →
    cnlAux k w = '\n' :: '\n' :: dNL (cnlAux 0 w) := by
  induction w with
  | nil =>
    intro k hk
    show List.replicate (min k 2) '\n' = _
    rw [Nat.min_eq_right hk]
    rfl
  | cons c rest ih =>
    intro k hk
    by_cases hc : c = '\n'
    · subst hc
      rw [cnlAux_cons_nl k rest, ih (k + 1) (by omega), cnlAux_cons_nl 0 rest,
        dNL_cnlAux rest 1]
    · rw [cnlAux_cons_other k c rest hc, Nat.min_eq_right hk,
        cnlAux_cons_other 0 c rest hc]
      rw [dNL_replicate_append, dNL_cons_other c _ hc]
      rfl

theorem cnlAux_append_seg (v : List Char) :
    ∀ (u : List Char) (k : Nat), u ≠ [] → u.getLast? ≠ some '\n' →
      cnlAux k (u ++ v) = cnlAux k u ++ cnlAux 0 v := by
  intro u
  induction u with
  | nil => intro k h _; exact absurd rfl h
  | cons c u2 ih =>
    intro k _ hlast
    cases u2 with
    | nil =>
      have hc : c ≠ '\n' := by
        intro hcon
        subst hcon
        exact hlast rfl
      rw [List.cons_append, List.nil_append, cnlAux_cons_other k c v hc,
        cnlAux_cons_other k c [] hc]
      simp [cnlAux]
    | cons d u3 =>
      have hlast2 : (d :: u3).getLast? ≠ some '\n' := by
        rw [List.getLast?_cons_cons] at hlast
        exact hlast
      by_cases hc : c = '\n'
      · subst hc
        rw [List.cons_append, cnlAux_cons_nl k _, cnlAux_cons_nl k _]
        exact ih (k + 1) (by simp) hlast2
      · rw [List.cons_append, cnlAux_cons_other k c _ hc, cnlAux_cons_other k c _ hc]
        rw [ih 0 (by simp) hlast2]
        simp [List.append_assoc]

theorem cnlAux_replicate : ∀ (j k : Nat),
    cnlAux k (List.replicate j '\n') = List.replicate (min (k + j) 2) '\n' := by
  intro j
  induction j with
  | zero => intro k; rfl
  | succ m ih =>
    intro k
    rw [List.replicate_succ, cnlAux_cons_nl, ih (k + 1)]
    congr 1
    omega

theorem dropWhile_ws_replicate_nl (u : List Char) :
    ∀ m, List.dropWhile isWS (List.replicate m '\n' ++ u) = List.dropWhile isWS u := by
  intro m
  induction m with
  | zero => rfl
  | succ n ih =>
    rw [List.replicate_succ, List.cons_append, List.dropWhile_cons, if_pos (by rfl)]
    exact ih

theorem pyStrip_replicate_nl_append (u : List Char) (m : Nat) :
    pyStrip (List.replicate m '\n' ++ u) = pyStrip u := by
  unfold pyStrip
  rw [dropWhile_ws_replicate_nl u m]

theorem pyStrip_replicate_nl (m : Nat) : pyStrip (List.replicate m '\n') = [] := by
  rw [show List.replicate m '\n' = List.replicate m '\n' ++ [] from (List.append_nil _).symm,
    pyStrip_replicate_nl_append]
  rfl

theorem pyStrip_cnlAux_k (t : List Char) :
    ∀ k, pyStrip (cnlAux k t) = pyStrip (cnlAux 0 t) := by
  induction t with
  | nil =>
    intro k
    show pyStrip (List.replicate (min k 2) '\n') = pyStrip (List.replicate (min 0 2) '\n')
    rw [pyStrip_replicate_nl, pyStrip_replicate_nl]
  | cons c rest ih =>
    intro k
    by_cases hc : c = '\n'
    · subst hc
      rw [cnlAux_cons_nl k rest, cnlAux_cons_nl 0 rest, ih (k + 1), ih 1]
    · rw [cnlAux_cons_other k c rest hc, cnlAux_cons_other 0 c rest hc,
        pyStrip_replicate_nl_append, pyStrip_replicate_nl_append]

end Pipeline

namespace Pipeline

theorem joinLines_cons_cons (l m : List Char) (rest : List (List Char)) :
    joinLines (l :: m :: rest) = l ++ '\n' :: joinLines (m :: rest) := rfl

theorem joinLines_append_ne (bs : List (List Char)) (hbs : bs ≠ []) :
    ∀ as : List (List Char), as ≠ [] →
      joinLines (as ++ bs) = joinLines as ++ '\n' :: joinLines bs := by
  intro as
  induction as with
  | nil => intro h; exact absurd rfl h
  | cons a as2 ih =>
    intro _
    cases as2 with
    | nil =>
      cases bs with
      | nil => exact absurd rfl hbs
      | cons b bs2 =>
        show joinLines (a :: b :: bs2) = a ++ '\n' :: joinLines (b :: bs2)
        rfl
    | cons a2 as3 =>
      have ih2 := ih (by simp)
      calc joinLines (a :: (a2 :: as3) ++ bs)
          = a ++ '\n' :: joinLines ((a2 :: as3) ++ bs) := rfl
        _ = a ++ '\n' :: (joinLines (a2 :: as3) ++ '\n' :: joinLines bs) := by rw [ih2]
        _ = joinLines (a :: a2 :: as3) ++ '\n' :: joinLines bs := by
            rw [joinLines_cons_cons a a2 as3]
            simp

theorem joinLines_nil_cons (X : List (List Char)) :
    joinLines ([] :: X) = if X = [] then [] else '\n' :: joinLines X := by
  cases X with
  | nil => rfl
  | cons b bs => rw [if_neg (by simp)]; rfl

theorem joinLines_head_cons (a : Char) (l : List Char) (rest : List (List Char)) :
    ∃ T, joinLines ((a :: l) :: rest) = a :: T := by
  cases rest with
  | nil => exact ⟨l, rfl⟩
  | cons m rs => exact ⟨l ++ '\n' :: joinLines (m :: rs), rfl⟩

theorem joinLines_getLast_good : ∀ (b : List (List Char)), b ≠ [] →
    (∀ l ∈ b, goodLine l = true) →
    ∃ z, (joinLines b).getLast? = some z ∧ isWS z = false := by
  intro b
  induction b with
  | nil => intro h _; exact absurd rfl h
  | cons l rest ih =>
    intro _ hg
    cases rest with
    | nil =>
      obtain ⟨a, z, _, hz, _, hwz, _⟩ := goodLine_elim l (hg l (List.mem_cons_self l []))
      exact ⟨z, hz, hwz⟩
    | cons m rs =>
      obtain ⟨z, hz, hwz⟩ := ih (by simp) (fun x hx => hg x (List.mem_cons_of_mem l hx))
      refine ⟨z, ?_, hwz⟩
      rw [joinLines_cons_cons, List.getLast?_append]
      rw [show ('\n' :: joinLines (m :: rs)) = ['\n'] ++ joinLines (m :: rs) from rfl,
        List.getLast?_append, hz]
      rfl

def hasDblNL : List Char → Bool
  | a :: b :: rest => (a = '\n' && b = '\n') || hasDblNL (b :: rest)
  | _ => false

theorem hasTripleNL_of_dbl : ∀ t, hasDblNL t = false → hasTripleNL t = false := by
  intro t
  induction t with
  | nil => intro _; rfl
  | cons a rest ih =>
    intro h
    cases rest with
    | nil => rfl
    | cons b rest2 =>
      cases rest2 with
      | nil => rfl
      | cons c rest3 =>
        have h' : (decide (a = '\n') && decide (b = '\n')) = false ∧
            hasDblNL (b :: c :: rest3) = false := by
          have h0 : ((decide (a = '\n') && decide (b = '\n')) ||
            hasDblNL (b :: c :: rest3)) = false := h
          rw [Bool.or_eq_false_iff] at h0
          exact h0
        show (decide (a = '\n') && decide (b = '\n') && decide (c = '\n') ||
          hasTripleNL (b :: c :: rest3)) = false
        rw [h'.1, Bool.false_and, Bool.false_or]
        exact ih h'.2

theorem hasDblNL_noNL : ∀ (l : List Char), '\n' ∉ l → hasDblNL l = false := by
  intro l
  induction l with
  | nil => intro _; rfl
  | cons a rest ih =>
    intro h
    cases rest with
    | nil => rfl
    | cons b r2 =>
      have ha : a ≠ '\n' := fun hc => h (hc ▸ List.mem_cons_self a _)
      have h2 : '\n' ∉ b :: r2 := fun hc => h (List.mem_cons_of_mem a hc)
      show ((decide (a = '\n') && decide (b = '\n')) || hasDblNL (b :: r2)) = false
      rw [ih h2]
      simp [ha]

theorem hasDblNL_append_nl : ∀ (u : List Char), '\n' ∉ u →
    ∀ J : List Char, J.head? ≠ some '\n' → hasDblNL J = false →
      hasDblNL (u ++ '\n' :: J) = false := by
  intro u
  induction u with
  | nil =>
    intro _ J hJh hJ
    cases J with
    | nil => rfl
    | cons c r =>
      have hc : c ≠ '\n' := fun hcon => hJh (by rw [hcon]; rfl)
      show ((decide ('\n' = '\n') && decide (c = '\n')) || hasDblNL (c :: r)) = false
      rw [hJ]
      simp [hc]
  | cons a u2 ih =>
    intro hu J hJh hJ
    have ha : a ≠ '\n' := fun hcon => hu (hcon ▸ List.mem_cons_self a u2)
    have hu2 : '\n' ∉ u2 := fun hcon => hu (List.mem_cons_of_mem a hcon)
    cases u2 with
    | nil =>
      have h2 : hasDblNL ('\n' :: J) = false := by
        have := ih hu2 J hJh hJ
        simpa using this
      show ((decide (a = '\n') && decide ('\n' = '\n')) || hasDblNL ('\n' :: J)) = false
      rw [h2]
      simp [ha]
    | cons b u3 =>
      have h2 := ih hu2 J hJh hJ
      rw [List.cons_append] at h2
      show ((decide (a = '\n') && decide (b = '\n')) ||
        hasDblNL (b :: (u3 ++ '\n' :: J))) = false
      rw [h2]
      simp [ha]

theorem joinLines_hasDblNL : ∀ (b : List (List Char)),
    (∀ l ∈ b, goodLine l = true) → hasDblNL (joinLines b) = false := by
  intro b
  induction b with
  | nil => intro _; rfl
  | cons l rest ih =>
    intro hg
    cases rest with
    | nil => exact hasDblNL_noNL l (goodLine_noNL l (hg l (List.mem_cons_self l [])))
    | cons m rs =>
      have hnl : '\n' ∉ l := goodLine_noNL l (hg l (List.mem_cons_self l _))
      have hih := ih (fun x hx => hg x (List.mem_cons_of_mem l hx))
      obtain ⟨a2, l2, hm, hwa2⟩ := goodLine_head m (hg m (by simp))
      have hhead : (joinLines (m :: rs)).head? ≠ some '\n' := by
        subst hm
        obtain ⟨T, hT⟩ := joinLines_head_cons a2 l2 rs
        rw [hT]
        intro hcon
        have : a2 = '\n' := by simpa using hcon
        rw [this] at hwa2
        exact absurd hwa2 (by decide)
      show hasDblNL (l ++ '\n' :: joinLines (m :: rs)) = false
      exact hasDblNL_append_nl l hnl _ hhead hih

def stripRight (s : List Char) : List Char := (s.reverse.dropWhile isWS).reverse

theorem pyStrip_eq_SR_SL (s : List Char) :
    pyStrip s = stripRight (s.dropWhile isWS) := rfl

theorem stripRight_append (u v : List Char) :
    stripRight (u ++ v) =
      if stripRight v = [] then stripRight u else u ++ stripRight v := by
  unfold stripRight
  rw [List.reverse_append, List.dropWhile_append]
  by_cases h : List.dropWhile isWS v.reverse = []
  · simp [h]
  · have h2 : (List.dropWhile isWS v.reverse).isEmpty = false := by
      cases hc : List.dropWhile isWS v.reverse with
      | nil => exact absurd hc h
      | cons x xs => rfl
    have h3 : (List.dropWhile isWS v.reverse).reverse ≠ [] := by
      simp [h]
    rw [h2]
    simp only [Bool.false_eq_true, if_false, if_neg h3]
    rw [List.reverse_append, List.reverse_reverse]

theorem stripRight_id_of_last (u : List Char) (z : Char)
    (hz : u.getLast? = some z) (hwz : isWS z = false) : stripRight u = u := by
  unfold stripRight
  rw [← List.head?_reverse] at hz
  cases hr : u.reverse with
  | nil => rw [hr] at hz; simp at hz
  | cons c r =>
    rw [hr] at hz
    have hcz : c = z := by simpa using hz
    subst hcz
    rw [dropWhile_isWS_of_head c r hwz, ← hr, List.reverse_reverse]

theorem stripRight_ne_nil_of_mem (u : List Char) (c : Char)
    (hc : c ∈ u) (hwc : isWS c = false) : stripRight u ≠ [] := by
  unfold stripRight
  intro hcon
  have h1 : List.dropWhile isWS u.reverse = [] := by
    have := congrArg List.reverse hcon
    simpa using this
  rw [List.dropWhile_eq_nil_iff] at h1
  exact absurd (h1 c (by simpa using hc)) (by simp [hwc])

theorem stripRight_two_nl : stripRight ['\n', '\n'] = [] := by decide

theorem dropWhile_isWS_eq_dNL (w : List Char)
    (h : dNL w = [] ∨ ∃ c r, dNL w = c :: r ∧ isWS c = false) :
    List.dropWhile isWS w = dNL w := by
  induction w with
  | nil => rfl
  | cons a rest ih =>
    by_cases ha : a = '\n'
    · subst ha
      rw [dNL_cons_nl] at h ⊢
      rw [List.dropWhile_cons, if_pos (by decide)]
      exact ih h
    · rw [dNL_cons_other a rest ha] at h ⊢
      rcases h with h | ⟨c, r, hcr, hwc⟩
      · exact absurd h (by simp)
      · have hca : c = a := by rw [List.cons.injEq] at hcr; exact hcr.1.symm
        subst hca
        rw [List.dropWhile_cons, if_neg (by simp [hwc])]

theorem cnl_head_good : ∀ (n : Nat) (ms : List (List Char)), ms.length ≤ n →
    (∀ l ∈ ms, l = [] ∨ goodLine l = true) →
    dNL (cnlAux 0 (joinLines ms)) = [] ∨
      ∃ c r, dNL (cnlAux 0 (joinLines ms)) = c :: r ∧ isWS c = false := by
  intro n
  induction n with
  | zero =>
    intro ms hlen _
    have hms : ms = [] := List.length_eq_zero.mp (Nat.le_zero.mp hlen)
    subst hms
    left; rfl
  | succ n ih =>
    intro ms hlen hg
    cases ms with
    | nil => left; rfl
    | cons l ms2 =>
      have hlen2 : ms2.length ≤ n := by simp at hlen; omega
      rcases hg l (List.mem_cons_self l ms2) with hl | hl
      · subst hl
        rw [joinLines_nil_cons ms2]
        by_cases h2 : ms2 = []
        · rw [if_pos h2]; left; rfl
        · rw [if_neg h2, cnlAux_cons_nl, dNL_cnlAux _ 1]
          exact ih ms2 hlen2 (fun x hx => hg x (List.mem_cons_of_mem _ hx))
      · obtain ⟨a, l2, hla, hwa⟩ := goodLine_head l hl
        subst hla
        have ha : a ≠ '\n' := by
          intro hc
          rw [hc] at hwa
          exact absurd hwa (by decide)
        obtain ⟨T, hT⟩ := joinLines_head_cons a l2 ms2
        rw [hT, cnlAux_cons_other 0 a T ha]
        right
        refine ⟨a, cnlAux 0 T, ?_, hwa⟩
        show dNL (List.replicate (min 0 2) '\n' ++ a :: cnlAux 0 T) = _
        rw [show List.replicate (min 0 2) '\n' = ([] : List Char) from rfl,
          List.nil_append, dNL_cons_other a _ ha]

theorem joinBlocks_lines_ne_nil : ∀ (fbs : List (List (List Char))), fbs ≠ [] →
    (∀ b ∈ fbs, b ≠ []) → joinBlocks fbs ≠ [] := by
  intro fbs
  induction fbs with
  | nil => intro h _; exact absurd rfl h
  | cons b bs _ =>
    intro _ hne
    cases bs with
    | nil => exact hne b (List.mem_cons_self b [])
    | cons b2 bs2 =>
      show b ++ [] :: joinBlocks (b2 :: bs2) ≠ []
      simp

theorem joinLines_joinBlocks_ne_nil (b : List (List Char)) (bs : List (List (List Char)))
    (hb : b ≠ []) (hg : ∀ l ∈ b, goodLine l = true) :
    joinLines (joinBlocks (b :: bs)) ≠ [] := by
  cases b with
  | nil => exact absurd rfl hb
  | cons l b2 =>
    obtain ⟨a, l2, hla, _⟩ := goodLine_head l (hg l (List.mem_cons_self l b2))
    subst hla
    have hshape : ∃ R, joinBlocks (((a :: l2) :: b2) :: bs) = (a :: l2) :: R := by
      cases bs with
      | nil => exact ⟨b2, rfl⟩
      | cons c cs => exact ⟨b2 ++ [] :: joinBlocks (c :: cs), rfl⟩
    obtain ⟨R, hR⟩ := hshape
    rw [hR]
    obtain ⟨T, hT⟩ := joinLines_head_cons a l2 R
    rw [hT]
    simp

end Pipeline

namespace Pipeline

/-- The leading maximal run of non-blank lines. -/
def takeBlock (ms : List (List Char)) : List (List Char) :=
  ms.takeWhile (fun l => !l.isEmpty)

/-- The remainder after the leading maximal run of non-blank lines. -/
def dropBlock (ms : List (List Char)) : List (List Char) :=
  ms.dropWhile (fun l => !l.isEmpty)

theorem takeBlock_dropBlock (ms : List (List Char)) :
    takeBlock ms ++ dropBlock ms = ms := by
  unfold takeBlock dropBlock
  exact List.takeWhile_append_dropWhile _ _

theorem dropBlock_shape : ∀ (ms : List (List Char)),
    dropBlock ms = [] ∨ ∃ ms2, dropBlock ms = [] :: ms2 := by
  intro ms
  induction ms with
  | nil => left; rfl
  | cons l rest ih =>
    unfold dropBlock at ih ⊢
    rw [List.dropWhile_cons]
    by_cases hl : (!l.isEmpty) = true
    · rw [if_pos hl]; exact ih
    · rw [if_neg hl]
      right
      have hnil : l = [] := by
        cases l with
        | nil => rfl
        | cons a r => exact absurd rfl hl
      exact ⟨rest, by rw [hnil]⟩

theorem pyStrip_eq_stripRight_of_head (s : List Char) (a : Char)
    (hhead : s.head? = some a) (ha : isWS a = false) :
    pyStrip s = stripRight s := by
  cases s with
  | nil => simp at hhead
  | cons c T =>
    have hca : c = a := by simpa using hhead
    subst hca
    rw [pyStrip_eq_SR_SL, dropWhile_isWS_of_head c T ha]

theorem master_text : ∀ (n : Nat) (ms : List (List Char)), ms.length ≤ n →
    (∀ l ∈ ms, l = [] ∨ goodLine l = true) →
    pyStrip (cnlAux 0 (joinLines ms)) =
      joinLines (joinBlocks ((blocksOf ms).filter (fun b => !b.isEmpty))) := by
  intro n
  induction n with
  | zero =>
    intro ms hlen _
    have hms : ms = [] := List.length_eq_zero.mp (Nat.le_zero.mp hlen)
    subst hms
    rfl
  | succ n ih =>
    intro ms hlen hg
    cases ms with
    | nil => rfl
    | cons l ms2 =>
      have hlen2 : ms2.length ≤ n := by simp at hlen; omega
      have hg2 : ∀ x ∈ ms2, x = [] ∨ goodLine x = true :=
        fun x hx => hg x (List.mem_cons_of_mem l hx)
      rcases hg l (List.mem_cons_self l ms2) with hl | hl
      · -- the first line is blank: it opens an empty block that is dropped
        subst hl
        have hblocks : blocksOf ([] :: ms2) = [] :: blocksOf ms2 := rfl
        have hfilt : (([] : List (List Char)) :: blocksOf ms2).filter (fun b => !b.isEmpty) =
            (blocksOf ms2).filter (fun b => !b.isEmpty) := by
          rw [List.filter_cons]
          simp
        rw [hblocks, hfilt, joinLines_nil_cons ms2]
        by_cases h2 : ms2 = []
        · subst h2
          rw [if_pos rfl]
          rfl
        · rw [if_neg h2, cnlAux_cons_nl, pyStrip_cnlAux_k (joinLines ms2) (0 + 1)]
          exact ih ms2 hlen2 hg2
      · -- the first line is good: peel the whole leading block
        have hlpred : (!(l.isEmpty)) = true := by
          cases l with
          | nil => simp [goodLine] at hl
          | cons a r => rfl
        have hBgood : ∀ x ∈ takeBlock (l :: ms2), goodLine x = true := by
          intro x hx
          have hx2 : x ∈ (l :: ms2).takeWhile (fun y => !y.isEmpty) := hx
          have hxm : x ∈ l :: ms2 := (List.takeWhile_prefix _).subset hx2
          have hxp := List.mem_takeWhile_imp hx2
          rcases hg x hxm with h0 | h0
          · subst h0; simp at hxp
          · exact h0
        have hBblank : ∀ x ∈ takeBlock (l :: ms2), isBlankL x = false :=
          fun x hx => goodLine_not_blank x (hBgood x hx)
        have hBcons : takeBlock (l :: ms2) = l :: takeBlock ms2 := by
          unfold takeBlock
          rw [List.takeWhile_cons, if_pos hlpred]
        have hBne : takeBlock (l :: ms2) ≠ [] := by rw [hBcons]; simp
        obtain ⟨a, l2, hla, hwa⟩ := goodLine_head l hl
        obtain ⟨z, hz, hwz⟩ := joinLines_getLast_good (takeBlock (l :: ms2)) hBne hBgood
        have hznl : (joinLines (takeBlock (l :: ms2))).getLast? ≠ some '\n' := by
          rw [hz]
          intro hc
          have hzc : z = '\n' := by simpa using hc
          rw [hzc] at hwz
          exact absurd hwz (by decide)
        have hbthead : ∃ T, joinLines (takeBlock (l :: ms2)) = a :: T := by
          rw [hBcons, hla]
          exact joinLines_head_cons a l2 (takeBlock ms2)
        obtain ⟨T, hT⟩ := hbthead
        have hbtne : joinLines (takeBlock (l :: ms2)) ≠ [] := by rw [hT]; simp
        have hcnlbt : cnlAux 0 (joinLines (takeBlock (l :: ms2))) =
            joinLines (takeBlock (l :: ms2)) := by
          have hid := collapseNewlines_id (joinLines (takeBlock (l :: ms2)))
            (hasTripleNL_of_dbl _ (joinLines_hasDblNL _ hBgood))
          unfold collapseNewlines at hid
          exact hid
        rcases dropBlock_shape (l :: ms2) with hD | ⟨ms', hD⟩
        · -- a single block with no blank line at all
          have hms : takeBlock (l :: ms2) = l :: ms2 := by
            have h0 := takeBlock_dropBlock (l :: ms2)
            rw [hD, List.append_nil] at h0
            exact h0
          have hAllGood : ∀ x ∈ l :: ms2, goodLine x = true :=
            fun x hx => hBgood x (by rw [hms]; exact hx)
          have hAllBlank : ∀ x ∈ l :: ms2, isBlankL x = false :=
            fun x hx => goodLine_not_blank x (hAllGood x hx)
          have hbl : blocksOf (l :: ms2) = [l :: ms2] := blocksOf_noblank _ hAllBlank
          have hfilt : ([l :: ms2] : List (List (List Char))).filter
              (fun b => !b.isEmpty) = [l :: ms2] := by
            simp
          have hcnl : cnlAux 0 (joinLines (l :: ms2)) = joinLines (l :: ms2) := by
            rw [← hms]
            exact hcnlbt
          have hps : pyStrip (joinLines (l :: ms2)) = joinLines (l :: ms2) := by
            apply pyStrip_id_of_edges
            right
            refine ⟨⟨a, ?_, hwa⟩, ⟨z, by rw [← hms]; exact hz, hwz⟩⟩
            rw [← hms, hT]
            rfl
          rw [hcnl, hps, hbl, hfilt]
          rfl
        · -- a blank line follows the leading block
          have hsplit2 : l :: ms2 = takeBlock (l :: ms2) ++ [] :: ms' := by
            have h0 := takeBlock_dropBlock (l :: ms2)
            rw [hD] at h0
            exact h0.symm
          have hlenms' : ms'.length ≤ n := by
            have hlen3 := congrArg List.length hsplit2
            have hBlen : (takeBlock (l :: ms2)).length = (takeBlock ms2).length + 1 := by
              rw [hBcons]; rfl
            simp [List.length_append] at hlen3
            omega
          have hg' : ∀ x ∈ ms', x = [] ∨ goodLine x = true := by
            intro x hx
            exact hg x (by
              rw [hsplit2]
              exact List.mem_append_right _ (List.mem_cons_of_mem _ hx))
          have IH' := ih ms' hlenms' hg'
          have hblocks2 : blocksOf (l :: ms2) = takeBlock (l :: ms2) :: blocksOf ms' := by
            conv_lhs => rw [hsplit2]
            exact blocksOf_block_cons _ hBblank ms'
          have hBisE : (!(takeBlock (l :: ms2)).isEmpty) = true := by
            rw [hBcons]; rfl
          have hfilt : (blocksOf (l :: ms2)).filter (fun b => !b.isEmpty) =
              takeBlock (l :: ms2) ::
                (blocksOf ms').filter (fun b => !b.isEmpty) := by
            rw [hblocks2, List.filter_cons, if_pos hBisE]
          have hjoin : joinLines (l :: ms2) =
              joinLines (takeBlock (l :: ms2)) ++ '\n' :: joinLines ([] :: ms') := by
            conv_lhs => rw [hsplit2]
            exact joinLines_append_ne ([] :: ms') (by simp) _ hBne
          have hcnl : cnlAux 0 (joinLines (l :: ms2)) =
              joinLines (takeBlock (l :: ms2)) ++ cnlAux 1 (joinLines ([] :: ms')) := by
            rw [hjoin]
            rw [cnlAux_append_seg ('\n' :: joinLines ([] :: ms')) _ 0 hbtne hznl]
            rw [hcnlbt, cnlAux_cons_nl]
          by_cases hms' : ms' = []
          · -- the document ends in trailing blank lines
            subst hms'
            have hcnl1 : cnlAux 1 (joinLines ([[]] : List (List Char))) = ['\n'] := rfl
            rw [hcnl, hcnl1]
            rw [pyStrip_eq_stripRight_of_head _ a (by rw [hT]; rfl) hwa]
            rw [stripRight_append, if_pos (by decide),
              stripRight_id_of_last _ z hz hwz]
            rw [hfilt]
            rfl
          · have hJ0 : joinLines ([] :: ms') = '\n' :: joinLines ms' := by
              rw [joinLines_nil_cons, if_neg hms']
            have hcnl2 : cnlAux 1 (joinLines ([] :: ms')) =
                '\n' :: '\n' :: dNL (cnlAux 0 (joinLines ms')) := by
              rw [hJ0, cnlAux_cons_nl]
              exact cnlAux_ge2 _ 2 (le_refl 2)
            have hheady := cnl_head_good ms'.length ms' (le_refl _) hg'
            rcases hheady with hY | ⟨c, r, hY, hwc⟩
            · -- the tail collapses to nothing
              have hW : pyStrip (cnlAux 0 (joinLines ms')) = [] := by
                rw [pyStrip_eq_SR_SL, dropWhile_isWS_eq_dNL _ (Or.inl hY), hY]
                rfl
              have hF : (blocksOf ms').filter (fun b => !b.isEmpty) = [] := by
                cases hFc : (blocksOf ms').filter (fun b => !b.isEmpty) with
                | nil => rfl
                | cons b0 f2 =>
                  have hb0 : b0 ∈ (blocksOf ms').filter (fun b => !b.isEmpty) := by
                    rw [hFc]; exact List.mem_cons_self _ _
                  have hb0' := List.mem_filter.mp hb0
                  have hb0ne : b0 ≠ [] := by
                    intro h0; rw [h0] at hb0'; simp at hb0'
                  have hb0good : ∀ x ∈ b0, goodLine x = true := by
                    intro x hx
                    have hxx := blocksOf_mem_not_blank ms' b0 hb0'.1 x hx
                    rcases hg' x hxx.1 with h0 | h0
                    · rw [h0] at hxx
                      exact absurd hxx.2 (by simp [isBlankL_nil])
                    · exact h0
                  have hne2 := joinLines_joinBlocks_ne_nil b0 f2 hb0ne hb0good
                  have hzero : joinLines (joinBlocks (b0 :: f2)) = [] := by
                    rw [← hFc]
                    exact IH'.symm.trans hW
                  exact absurd hzero hne2
              rw [hcnl, hcnl2, hY]
              rw [pyStrip_eq_stripRight_of_head _ a (by rw [hT]; rfl) hwa]
              rw [stripRight_append, if_pos (by decide),
                stripRight_id_of_last _ z hz hwz]
              rw [hfilt, hF]
              rfl
            · -- the tail keeps at least one block
              have hW : pyStrip (cnlAux 0 (joinLines ms')) =
                  stripRight (dNL (cnlAux 0 (joinLines ms'))) := by
                rw [pyStrip_eq_SR_SL,
                  dropWhile_isWS_eq_dNL _ (Or.inr ⟨c, r, hY, hwc⟩)]
              have hRne : stripRight (dNL (cnlAux 0 (joinLines ms'))) ≠ [] := by
                rw [hY]
                exact stripRight_ne_nil_of_mem _ c (List.mem_cons_self c r) hwc
              have hFne : (blocksOf ms').filter (fun b => !b.isEmpty) ≠ [] := by
                intro h0
                rw [hW] at IH'
                rw [h0] at IH'
                exact hRne (IH'.trans rfl)
              rw [hcnl, hcnl2]
              rw [pyStrip_eq_stripRight_of_head _ a (by rw [hT]; rfl) hwa]
              rw [stripRight_append]
              have hinner : stripRight ('\n' :: '\n' :: dNL (cnlAux 0 (joinLines ms'))) =
                  '\n' :: '\n' :: stripRight (dNL (cnlAux 0 (joinLines ms'))) := by
                rw [show ('\n' :: '\n' :: dNL (cnlAux 0 (joinLines ms'))) =
                  ['\n', '\n'] ++ dNL (cnlAux 0 (joinLines ms')) from rfl]
                rw [stripRight_append, if_neg hRne]
                rfl
              rw [hinner, if_neg (by simp)]
              cases hFc : (blocksOf ms').filter (fun b => !b.isEmpty) with
              | nil => exact absurd hFc hFne
              | cons b0 f2 =>
                rw [hfilt, hFc]
                have hmemne : ∀ x ∈ b0 :: f2, x ≠ [] := by
                  intro x hx
                  have hxf : x ∈ (blocksOf ms').filter (fun b => !b.isEmpty) := by
                    rw [hFc]; exact hx
                  have hp := (List.mem_filter.mp hxf).2
                  intro h0
                  rw [h0] at hp
                  simp at hp
                have hJBne : joinBlocks (b0 :: f2) ≠ [] :=
                  joinBlocks_lines_ne_nil (b0 :: f2) (by simp) hmemne
                have hRHS : joinLines (joinBlocks (takeBlock (l :: ms2) :: b0 :: f2)) =
                    joinLines (takeBlock (l :: ms2)) ++
                      '\n' :: '\n' :: joinLines (joinBlocks (b0 :: f2)) := by
                  show joinLines (takeBlock (l :: ms2) ++ [] :: joinBlocks (b0 :: f2)) = _
                  rw [joinLines_append_ne ([] :: joinBlocks (b0 :: f2)) (by simp) _ hBne]
                  rw [joinLines_nil_cons, if_neg hJBne]
                rw [hRHS]
                have hfin : stripRight (dNL (cnlAux 0 (joinLines ms'))) =
                    joinLines (joinBlocks (b0 :: f2)) := by
                  rw [← hFc, ← IH', hW]
                rw [hfin]

end Pipeline

namespace Pipeline

/-- Per-block cleaning: header/footer filter, the line-join pass, then
space collapapse on each line. -/
def blockClean (c : List Char) (b : List (List Char)) : List (List Char) :=
  (fixSpec (b.filterMap (headerKeep c))).map collapseSpaces

/-- No two adjacent blank lines in a line list. -/
def noTwoBlankAdj : List (List Char) → Bool
  | a :: b :: rest => !(a.isEmpty && b.isEmpty) && noTwoBlankAdj (b :: rest)
  | _ => true

theorem mem_filterMap_headerKeep (c : List Char) (b : List (List Char)) (x : List Char)
    (hx : x ∈ b.filterMap (headerKeep c)) : x ∈ b := by
  obtain ⟨a, ha, hfa⟩ := List.mem_filterMap.mp hx
  unfold headerKeep at hfa
  by_cases hart : isArtifact c (pyStrip a) = true
  · rw [if_pos hart] at hfa
    exact absurd hfa (by simp)
  · rw [if_neg hart] at hfa
    have hax : a = x := by simpa using hfa
    subst hax
    exact ha

theorem mem_filterMap_headerStep (c : List Char) (ls : List (List Char)) (x : List Char)
    (hx : x ∈ ls.filterMap (headerStep c)) : x = [] ∨ x ∈ ls := by
  obtain ⟨a, ha, hfa⟩ := List.mem_filterMap.mp hx
  simp only [headerStep] at hfa
  by_cases h1 : pyStrip a = []
  · rw [if_pos h1] at hfa
    left
    have h2 : ([] : List Char) = x := by simpa using hfa
    exact h2.symm
  · rw [if_neg h1] at hfa
    by_cases h2 : isArtifact c (pyStrip a) = true
    · rw [if_pos h2] at hfa
      exact absurd hfa (by simp)
    · rw [if_neg h2] at hfa
      right
      have hax : a = x := by simpa using hfa
      subst hax
      exact ha

theorem sepJoin_eq_nil : ∀ bs : List (List (List Char)), sepJoin bs = [] →
    bs = [] ∨ bs = [[]] := by
  intro bs h
  cases bs with
  | nil => exact Or.inl rfl
  | cons b rest =>
    cases rest with
    | nil =>
      right
      have hb : b = [] := h
      rw [hb]
    | cons b2 rest2 =>
      rw [show sepJoin (b :: b2 :: rest2) = b ++ [] :: sepJoin (b2 :: rest2) from rfl] at h
      exact absurd h (by simp)

theorem map_sepJoin (f : List Char → List Char) (hf : f [] = []) :
    ∀ bs : List (List (List Char)),
      (sepJoin bs).map f = sepJoin (bs.map (List.map f)) := by
  intro bs
  induction bs with
  | nil => rfl
  | cons b rest ih =>
    cases rest with
    | nil => rfl
    | cons b2 rest2 =>
      show (b ++ [] :: sepJoin (b2 :: rest2)).map f = _
      rw [List.map_append, List.map_cons, hf, ih]
      rfl

theorem mem_sepJoin : ∀ (bs : List (List (List Char))) (x : List Char),
    x ∈ sepJoin bs → x = [] ∨ ∃ b ∈ bs, x ∈ b := by
  intro bs
  induction bs with
  | nil => intro x hx; simp [sepJoin] at hx
  | cons b rest ih =>
    intro x hx
    cases rest with
    | nil => exact Or.inr ⟨b, List.mem_cons_self b [], hx⟩
    | cons b2 rest2 =>
      have hx2 : x ∈ b ++ [] :: sepJoin (b2 :: rest2) := hx
      rcases List.mem_append.mp hx2 with h1 | h1
      · exact Or.inr ⟨b, List.mem_cons_self b _, h1⟩
      · rcases List.mem_cons.mp h1 with h2 | h2
        · exact Or.inl h2
        · rcases ih x h2 with h3 | ⟨b3, hb3, hxb3⟩
          · exact Or.inl h3
          · exact Or.inr ⟨b3, List.mem_cons_of_mem b hb3, hxb3⟩

theorem mem_joinBlocks : ∀ (bs : List (List (List Char))) (x : List Char),
    x ∈ joinBlocks bs → x = [] ∨ ∃ b ∈ bs, x ∈ b := by
  intro bs
  induction bs with
  | nil =>
    intro x hx
    left
    have hx2 : x ∈ ([[]] : List (List Char)) := hx
    simpa using hx2
  | cons b rest ih =>
    intro x hx
    cases rest with
    | nil => exact Or.inr ⟨b, List.mem_cons_self b [], hx⟩
    | cons b2 rest2 =>
      have hx2 : x ∈ b ++ [] :: joinBlocks (b2 :: rest2) := hx
      rcases List.mem_append.mp hx2 with h1 | h1
      · exact Or.inr ⟨b, List.mem_cons_self b _, h1⟩
      · rcases List.mem_cons.mp h1 with h2 | h2
        · exact Or.inl h2
        · rcases ih x h2 with h3 | ⟨b3, hb3, hxb3⟩
          · exact Or.inl h3
          · exact Or.inr ⟨b3, List.mem_cons_of_mem b hb3, hxb3⟩

theorem noTwoBlankAdj_of_all : ∀ ls : List (List Char), (∀ l ∈ ls, l ≠ []) →
    noTwoBlankAdj ls = true := by
  intro ls
  induction ls with
  | nil => intro _; rfl
  | cons a rest ih =>
    intro h
    cases rest with
    | nil => rfl
    | cons b r2 =>
      have ha : a ≠ [] := h a (List.mem_cons_self a _)
      have haE : a.isEmpty = false := by
        cases a with
        | nil => exact absurd rfl ha
        | cons c cs => rfl
      show (!(a.isEmpty && b.isEmpty) && noTwoBlankAdj (b :: r2)) = true
      rw [haE, Bool.false_and, Bool.not_false, Bool.true_and]
      exact ih (fun l hl => h l (List.mem_cons_of_mem a hl))

theorem noTwoBlankAdj_append_sep : ∀ (b : List (List Char)), (∀ l ∈ b, l ≠ []) →
    ∀ Y : List (List Char), Y.head? ≠ some [] → noTwoBlankAdj Y = true →
      noTwoBlankAdj (b ++ [] :: Y) = true := by
  intro b
  induction b with
  | nil =>
    intro _ Y hY1 hY2
    cases Y with
    | nil => rfl
    | cons y ys =>
      have hy : y ≠ [] := fun hc => hY1 (by rw [hc]; rfl)
      have hyE : y.isEmpty = false := by
        cases y with
        | nil => exact absurd rfl hy
        | cons c cs => rfl
      show (!(List.isEmpty ([] : List Char) && y.isEmpty) && noTwoBlankAdj (y :: ys)) = true
      rw [hyE, Bool.and_false, Bool.not_false, Bool.true_and]
      exact hY2
  | cons x b2 ih =>
    intro hb Y hY1 hY2
    have hx : x ≠ [] := hb x (List.mem_cons_self x _)
    have hxE : x.isEmpty = false := by
      cases x with
      | nil => exact absurd rfl hx
      | cons c cs => rfl
    have hb2 : ∀ l ∈ b2, l ≠ [] := fun l hl => hb l (List.mem_cons_of_mem x hl)
    cases b2 with
    | nil =>
      show (!(x.isEmpty && List.isEmpty ([] : List Char)) && noTwoBlankAdj ([] :: Y)) = true
      rw [hxE, Bool.false_and, Bool.not_false, Bool.true_and]
      exact ih hb2 Y hY1 hY2
    | cons x2 b3 =>
      show (!(x.isEmpty && x2.isEmpty) && noTwoBlankAdj (x2 :: (b3 ++ [] :: Y))) = true
      rw [hxE, Bool.false_and, Bool.not_false, Bool.true_and]
      exact ih hb2 Y hY1 hY2

theorem joinBlocks_head_ne (b2 : List (List Char)) (rest : List (List (List Char)))
    (hb2 : b2 ≠ []) (hl : ∀ l ∈ b2, l ≠ []) :
    (joinBlocks (b2 :: rest)).head? ≠ some [] := by
  cases b2 with
  | nil => exact absurd rfl hb2
  | cons y ys =>
    have hy : y ≠ [] := hl y (List.mem_cons_self y _)
    cases rest with
    | nil =>
      intro hc
      have hc2 : (y :: ys).head? = some [] := hc
      exact hy (by simpa using hc2)
    | cons c cs =>
      intro hc
      apply hy
      have hhead : ((y :: ys) ++ [] :: joinBlocks (c :: cs)).head? = some y := by
        rw [List.cons_append]
        rfl
      have hc2 : (joinBlocks ((y :: ys) :: c :: cs)).head? = some y := hhead
      rw [hc2] at hc
      simpa using hc

theorem noTwoBlankAdj_joinBlocks : ∀ fbs : List (List (List Char)),
    (∀ b ∈ fbs, b ≠ [] ∧ ∀ l ∈ b, l ≠ []) →
    noTwoBlankAdj (joinBlocks fbs) = true := by
  intro fbs
  induction fbs with
  | nil => intro _; rfl
  | cons b rest ih =>
    intro h
    obtain ⟨hbne, hbl⟩ := h b (List.mem_cons_self b _)
    cases rest with
    | nil => exact noTwoBlankAdj_of_all b hbl
    | cons b2 rest2 =>
      obtain ⟨hb2ne, hb2l⟩ := h b2 (by simp)
      show noTwoBlankAdj (b ++ [] :: joinBlocks (b2 :: rest2)) = true
      exact noTwoBlankAdj_append_sep b hbl _ (joinBlocks_head_ne b2 rest2 hb2ne hb2l)
        (ih (fun x hx => h x (List.mem_cons_of_mem b hx)))

theorem splitLines_joinBlocks (fbs : List (List (List Char)))
    (h : ∀ b ∈ fbs, b ≠ [] ∧ ∀ l ∈ b, goodLine l = true) :
    splitLines (joinLines (joinBlocks fbs)) = joinBlocks fbs := by
  cases fbs with
  | nil => rfl
  | cons b rest =>
    apply splitLines_joinLines
    · exact joinBlocks_lines_ne_nil _ (by simp) (fun x hx => (h x hx).1)
    · intro x hx
      rcases mem_joinBlocks _ x hx with h1 | ⟨b3, hb3, hxb3⟩
      · rw [h1]; simp
      · exact goodLine_noNL x ((h b3 hb3).2 x hxb3)

theorem blockClean_good (c t2 : List Char) (b0 : List (List Char))
    (hb0 : b0 ∈ blocksOf (splitLines t2)) :
    ∀ l ∈ blockClean c b0, goodLine l = true := by
  intro l hl
  unfold blockClean at hl
  obtain ⟨l0, hl0mem, hl0eq⟩ := List.mem_map.mp hl
  subst hl0eq
  apply goodLine_collapseSpaces
  apply fixSpec_good (b0.filterMap (headerKeep c)).length _ (le_refl _) ?_ l0 hl0mem
  intro y hy
  have hy0 : y ∈ b0 := mem_filterMap_headerKeep c b0 y hy
  have h2 := blocksOf_mem_not_blank (splitLines t2) b0 hb0 y hy0
  exact ⟨h2.2, mem_splitLines_noNL t2 y h2.1⟩

theorem fbj_eq_fixSpec (u : List Char) :
    fix_broken_line_joins u = joinLines (fixSpec (splitLines u)) := by
  unfold fix_broken_line_joins
  rw [fixAux_eq_fixSpec (splitLines u) (splitLines u).length 0 (by omega),
    List.drop_zero]

end Pipeline

namespace Pipeline

/-- `clean_text` acts block by block on the page-marker-free text:
each blank-separated block is cleaned independently, blocks whose
lines are all removed disappear, and the surviving blocks are joined
with exactly one blank line between consecutive blocks. -/
theorem clean_text_blocks (t c : List Char) :
    splitLines (clean_text t c) =
      joinBlocks (((blocksOf (splitLines (removePageMarkers t))).map
        (blockClean c)).filter (fun b => !b.isEmpty)) := by
  show splitLines (pyStrip (remove_extra_spaces (fix_broken_line_joins
    (remove_headers_footers (removePageMarkers t) c)))) = _
  generalize removePageMarkers t = t2
  have hhf : remove_headers_footers t2 c =
      joinLines ((splitLines t2).filterMap (headerStep c)) := rfl
  rw [hhf, headers_blocks c (splitLines t2)]
  by_cases hnil : sepJoin ((blocksOf (splitLines t2)).map
      (List.filterMap (headerKeep c))) = []
  · rcases sepJoin_eq_nil _ hnil with h0 | h0
    · exact absurd (List.map_eq_nil_iff.mp h0) (blocksOf_ne_nil _)
    · have hexists : ∃ b0, blocksOf (splitLines t2) = [b0] ∧
          List.filterMap (headerKeep c) b0 = [] := by
        cases hbl : blocksOf (splitLines t2) with
        | nil => exact absurd hbl (blocksOf_ne_nil _)
        | cons b0 bs0 =>
          rw [hbl, List.map_cons] at h0
          injection h0 with hh ht
          exact ⟨b0, by rw [List.map_eq_nil_iff.mp ht], hh⟩
      obtain ⟨b0, hb0, hfm⟩ := hexists
      rw [hnil, hb0]
      have hbc : blockClean c b0 = [] := by
        unfold blockClean
        rw [hfm]
        rfl
      have hRHS : (([b0].map (blockClean c)).filter (fun b => !b.isEmpty)) =
          ([] : List (List (List Char))) := by
        rw [List.map_cons, List.map_nil, hbc]
        rfl
      rw [hRHS]
      rfl
  · have hmemS : ∀ x ∈ sepJoin ((blocksOf (splitLines t2)).map
        (List.filterMap (headerKeep c))), x = [] ∨ x ∈ splitLines t2 := by
      intro x hx
      rw [← headers_blocks c (splitLines t2)] at hx
      exact mem_filterMap_headerStep c _ x hx
    have hnoNL1 : ∀ x ∈ sepJoin ((blocksOf (splitLines t2)).map
        (List.filterMap (headerKeep c))), '\n' ∉ x := by
      intro x hx
      rcases hmemS x hx with h1 | h1
      · rw [h1]; simp
      · exact mem_splitLines_noNL t2 x h1
    have hsplit : splitLines (joinLines (sepJoin ((blocksOf (splitLines t2)).map
        (List.filterMap (headerKeep c))))) =
        sepJoin ((blocksOf (splitLines t2)).map (List.filterMap (headerKeep c))) :=
      splitLines_joinLines _ hnil hnoNL1
    have hfbj : fix_broken_line_joins (joinLines (sepJoin
        ((blocksOf (splitLines t2)).map (List.filterMap (headerKeep c))))) =
        joinLines (fixSpec (sepJoin ((blocksOf (splitLines t2)).map
          (List.filterMap (headerKeep c))))) := by
      rw [fbj_eq_fixSpec, hsplit]
    rw [hfbj]
    have hBS1both : ∀ b ∈ (blocksOf (splitLines t2)).map (List.filterMap (headerKeep c)),
        ∀ l ∈ b, isBlankL l = false ∧ '\n' ∉ l := by
      intro b hb l hl
      obtain ⟨b0, hb0mem, hb0eq⟩ := List.mem_map.mp hb
      subst hb0eq
      have hl0 : l ∈ b0 := mem_filterMap_headerKeep c b0 l hl
      have h2 := blocksOf_mem_not_blank (splitLines t2) b0 hb0mem l hl0
      exact ⟨h2.2, mem_splitLines_noNL t2 l h2.1⟩
    rw [fixSpec_sepJoin _ (fun b hb l hl => (hBS1both b hb l hl).1)]
    show splitLines (pyStrip (collapseNewlines (collapseSpaces (joinLines (sepJoin
      (((blocksOf (splitLines t2)).map (List.filterMap (headerKeep c))).map
        fixSpec)))))) = _
    rw [collapseSpaces_joinLines, map_sepJoin collapseSpaces rfl]
    have hBS3eq : ((((blocksOf (splitLines t2)).map (List.filterMap (headerKeep c))).map
        fixSpec).map (List.map collapseSpaces)) =
        (blocksOf (splitLines t2)).map (blockClean c) := by
      rw [List.map_map, List.map_map]
      rfl
    rw [hBS3eq]
    have hBS3good : ∀ b ∈ (blocksOf (splitLines t2)).map (blockClean c),
        ∀ l ∈ b, goodLine l = true := by
      intro b hb l hl
      obtain ⟨b0, hb0mem, hb0eq⟩ := List.mem_map.mp hb
      subst hb0eq
      exact blockClean_good c t2 b0 hb0mem l hl
    have hBS3blank : ∀ b ∈ (blocksOf (splitLines t2)).map (blockClean c),
        ∀ l ∈ b, isBlankL l = false :=
      fun b hb l hl => goodLine_not_blank l (hBS3good b hb l hl)
    have hBS3ne : (blocksOf (splitLines t2)).map (blockClean c) ≠ [] := by
      intro h0
      exact absurd (List.map_eq_nil_iff.mp h0) (blocksOf_ne_nil _)
    have hmsgood : ∀ x ∈ sepJoin ((blocksOf (splitLines t2)).map (blockClean c)),
        x = [] ∨ goodLine x = true := by
      intro x hx
      rcases mem_sepJoin _ x hx with h1 | ⟨b, hb, hxb⟩
      · exact Or.inl h1
      · exact Or.inr (hBS3good b hb x hxb)
    have hmaster := master_text (sepJoin ((blocksOf (splitLines t2)).map
      (blockClean c))).length _ (le_refl _) hmsgood
    rw [blocksOf_sepJoin _ hBS3blank hBS3ne] at hmaster
    have hmaster2 : pyStrip (collapseNewlines (joinLines (sepJoin
        ((blocksOf (splitLines t2)).map (blockClean c))))) =
        joinLines (joinBlocks (((blocksOf (splitLines t2)).map (blockClean c)).filter
          (fun b => !b.isEmpty))) := hmaster
    rw [hmaster2]
    apply splitLines_joinBlocks
    intro b hb
    have hb2 := List.mem_filter.mp hb
    refine ⟨?_, fun l hl => hBS3good b hb2.1 l hl⟩
    intro h0
    have hp := hb2.2
    rw [h0] at hp
    simp at hp

end Pipeline

namespace Pipeline

/-- The C6 counterexample text: a page-marker match straddling the
blank line. -/
def tC6 : List Char := "A--- Page 1\n\n---B".data

/-- The C6 counterexample company name. -/
def cC6 : List Char := "ACME".data

/-- The C6 witness text: three paragraphs, one artifact line. -/
def tW6 : List Char := "Hello world\n\nBye.\n\n2022\nNext part".data

/-- The C6 witness company name. -/
def cW6 : List Char := "ACME".data

end Pipeline

/-- C6 counterexample: in `"A--- Page 1\n\n---B"` a blank line
separates the two non-empty lines `"A--- Page 1"` and `"---B"`, yet
`clean_text` returns the single line `"AB"`: the page-marker regex
matches across the blank line (`\s` matches newlines), so the blank
line separating two non-empty lines is collapsed to zero blank
lines — refuting the first half of the claim. -/
theorem claim_C6_counterexample :
    Pipeline.splitLines Pipeline.tC6 =
      ["A--- Page 1".data, [], "---B".data] ∧
    "A--- Page 1".data ≠ ([] : List Char) ∧
    "---B".data ≠ ([] : List Char) ∧
    Pipeline.clean_text Pipeline.tC6 Pipeline.cC6 = "AB".data ∧
    ([] : List Char) ∉ Pipeline.splitLines (Pipeline.clean_text Pipeline.tC6 Pipeline.cC6) := by
  refine ⟨by decide, by decide, by decide, by decide, by decide⟩

/-- C6 (amended): the output of `clean_text` never has two adjacent
blank lines; and on page-marker-free input the paragraph structure is
preserved block by block: the output's line list is exactly the input's
blank-separated blocks, each cleaned independently, with emptied blocks
dropped and the surviving blocks separated by exactly one blank line —
in particular a blank line between two blocks that both survive is
never collapsed to zero. On inputs with page-marker matches the
preservation half fails (see the counterexample). -/
theorem claim_C6_paragraph_structure (t c : List Char) :
    Pipeline.noTwoBlankAdj (Pipeline.splitLines (Pipeline.clean_text t c)) = true ∧
    (Pipeline.removePageMarkers t = t →
      Pipeline.splitLines (Pipeline.clean_text t c) =
        Pipeline.joinBlocks (((Pipeline.blocksOf (Pipeline.splitLines t)).map
          (Pipeline.blockClean c)).filter (fun b => !b.isEmpty))) := by
  constructor
  · rw [Pipeline.clean_text_blocks t c]
    apply Pipeline.noTwoBlankAdj_joinBlocks
    intro b hb
    have hb2 := List.mem_filter.mp hb
    obtain ⟨b0, hb0mem, hb0eq⟩ := List.mem_map.mp hb2.1
    constructor
    · intro h0
      have hp := hb2.2
      rw [h0] at hp
      simp at hp
    · intro l hl
      have hg : Pipeline.goodLine l = true := by
        rw [← hb0eq] at hl
        exact Pipeline.blockClean_good c (Pipeline.removePageMarkers t) b0 hb0mem l hl
      exact Pipeline.goodLine_ne_nil l hg
  · intro hrpm
    rw [Pipeline.clean_text_blocks t c, hrpm]

/-- C6 witness: a concrete page-marker-free text with three blocks, the
third beginning with an artifact line, on which the amended claim's
hypothesis and both conclusions are checked concretely. -/
theorem claim_C6_paragraph_structure_witness :
    Pipeline.removePageMarkers Pipeline.tW6 = Pipeline.tW6 ∧
    Pipeline.noTwoBlankAdj (Pipeline.splitLines
      (Pipeline.clean_text Pipeline.tW6 Pipeline.cW6)) = true ∧
    Pipeline.splitLines (Pipeline.clean_text Pipeline.tW6 Pipeline.cW6) =
      Pipeline.joinBlocks (((Pipeline.blocksOf (Pipeline.splitLines Pipeline.tW6)).map
        (Pipeline.blockClean Pipeline.cW6)).filter (fun b => !b.isEmpty)) :=
  ⟨by decide,
   (claim_C6_paragraph_structure Pipeline.tW6 Pipeline.cW6).1,
   (claim_C6_paragraph_structure Pipeline.tW6 Pipeline.cW6).2 (by decide)⟩
